import Mathlib

/-!
Shallow embedding of the real-time collaboration engine in
`app/websockets/collaboration.py` (CampaignCollaborationRoom and
CollaborationManager), together with proofs about its lock table,
change log, broadcast and cleanup behaviour.

Modelling conventions:
* Python dicts (`users`, `content_locks`, `rooms`) are insertion-ordered
  association lists; Python dicts never hold a duplicate key, so the
  theorems that need it take a `Nodup` hypothesis on the key list.
* Python sets (`active_locks`) are lists kept duplicate-free by
  inserting only absent elements.
* `datetime.now()` is an abstract tick `now : Nat`; every call inside a
  single operation yields the same tick.
* A session's transport is a single `connected : Bool`: `send_event`
  returns it (the `client_state` test and the swallowed send exception
  both yield `False` in the source).  `last_activity` on a session is
  written but never read anywhere in the source, so it is omitted.
* Each operation returns its final room, plus a trace of the sends it
  attempted, the broadcasts it started, and the persistence attempts it
  made.  The mutual recursion between `broadcast_event` and
  `remove_user` (disconnect cleanup) is driven by a fuel counter;
  exhausted fuel is the `RRes.fuel` outcome.  The uncaught `KeyError`
  that `del self.users[user_id]` raises when a reentrant cleanup has
  already removed that user is the `RRes.exn` outcome, carrying the
  state and trace at the raise (Python mutation is in place, so state
  reached before the raise survives).
-/

namespace Collab

abbrev UserId := String
abbrev FieldPath := String

/-- Look up the first binding of key `k` in an association list. -/
def alookup {β : Type} (m : List (String × β)) (k : String) : Option β :=
  match m with
  | [] => none
  | (k', v) :: rest => if k' = k then some v else alookup rest k

/-- Python dict assignment: replace the binding in place if the key is
present, otherwise append the new binding at the end. -/
def ainsert {β : Type} (m : List (String × β)) (k : String) (v : β) :
    List (String × β) :=
  match m with
  | [] => [(k, v)]
  | (k', v') :: rest =>
    if k' = k then (k, v) :: rest else (k', v') :: ainsert rest k v

/-- Python `del d[k]` / `set.discard`: drop every binding of `k` (on the
duplicate-free lists we build this deletes the unique binding). -/
def aerase {β : Type} (m : List (String × β)) (k : String) :
    List (String × β) :=
  m.filter (fun p => !decide (p.1 = k))

/-- The key list, in insertion order (Python `list(d.keys())`). -/
def akeys {β : Type} (m : List (String × β)) : List String :=
  m.map (fun p => p.1)

/-- Apply `f` to the value bound to `k`, if any (Python mutating
`d[k].field = ...` after an `if k in d` guard). -/
def adjust {β : Type} (m : List (String × β)) (k : String) (f : β → β) :
    List (String × β) :=
  m.map (fun p => if p.1 = k then (p.1, f p.2) else p)

/-- The event kinds of `CollaborationEventType`. -/
inductive EventType where
  | user_joined
  | user_left
  | content_changed
  | cursor_moved
  | comment_added
  | selection_changed
  | lock_acquired
  | lock_released
  | conflict_detected
  | sync_request
  | sync_response
deriving DecidableEq, Repr

/-- One entry of `change_history` (`ChangeEntry`); the `details` dict of
the source is flattened into its three fields. -/
structure ChangeEntry where
  timestamp : Nat
  user_id : UserId
  change_type : String
  field_path : FieldPath
  old_value : String
  new_value : String
deriving DecidableEq, Repr

/-- One participant entry of a SYNC_RESPONSE `active_users` payload. -/
structure SyncUser where
  user_id : UserId
  username : String
  cursor_position : Option String
  current_selection : Option String
  joined_at : Nat
deriving DecidableEq, Repr

/-- One lock entry of a SYNC_RESPONSE `content_locks` payload. -/
structure LockView where
  field_path : FieldPath
  locked_by : UserId
  username : String
deriving DecidableEq, Repr

/-- The kind-specific `data` payload of an event. -/
inductive EventData where
  | userJoined (username : String) (joined_at : Nat)
      (active_users : List UserId)
  | userLeft (username : String) (left_at : Nat)
      (active_users : List UserId)
  | contentChanged (field_path : FieldPath) (old_value new_value : String)
      (op_kind : String) (change_id : Nat)
  | lockAcquired (field_path : FieldPath) (username : String)
  | lockReleased (field_path : FieldPath) (username : String)
  | conflictDetected (field_path : FieldPath) (locked_by : Option UserId)
      (locked_by_username : String) (message : String)
  | syncResponse (active_users : List SyncUser)
      (content_locks : List LockView) (recent_changes : List ChangeEntry)
deriving DecidableEq, Repr

/-- A `CollaborationEvent`: kind, room id, originating actor, payload,
timestamp. -/
structure CollaborationEvent where
  event_type : EventType
  campaign_id : String
  user_id : UserId
  data : EventData
  timestamp : Nat
deriving DecidableEq, Repr

/-- The derived `event_id` of an event (never client-supplied). -/
def CollaborationEvent.eid (e : CollaborationEvent) : String :=
  e.campaign_id ++ "_" ++ e.user_id ++ "_" ++ toString e.timestamp

/-- A `UserSession`.  `connected` models the transport: `send_event`
returns it. -/
structure UserSession where
  user_id : UserId
  username : String
  connected : Bool
  joined_at : Nat
  cursor_position : Option String
  current_selection : Option String
  active_locks : List FieldPath
deriving DecidableEq, Repr

/-- `UserSession.__init__`: fresh presence state, no locks. -/
def UserSession.fresh (uid uname : String) (connected : Bool) (now : Nat) :
    UserSession :=
  ⟨uid, uname, connected, now, none, none, []⟩

/-- A `CampaignCollaborationRoom`'s state. -/
structure Room where
  campaign_id : String
  users : List (UserId × UserSession)
  content_locks : List (FieldPath × UserId)
  change_history : List ChangeEntry
  created_at : Nat
  last_activity : Nat
deriving DecidableEq, Repr

/-- `CampaignCollaborationRoom.__init__`. -/
def emptyRoom (cid : String) (now : Nat) : Room :=
  ⟨cid, [], [], [], now, now⟩

/-- Outcome of the fire-and-forget database write in `persist_change`. -/
inductive DbOutcome where
  | dbOk
  | notFound
  | getRaises
  | saveRaises
deriving DecidableEq, Repr

/-- One observable step of an operation: a send attempt on one session's
transport (with its success flag), the start of a fan-out broadcast, or
a persistence attempt. -/
inductive TraceItem where
  | send (recipient : UserId) (event : CollaborationEvent)
      (delivered : Bool)
  | bcast (event : CollaborationEvent) (exclude : Option UserId)
  | persist (entry : ChangeEntry) (db : DbOutcome)
deriving DecidableEq, Repr

/-- Result of an operation on state type `σ` returning `α`: normal
return, an escaping Python exception (the reentrant-cleanup `KeyError`),
or fuel exhaustion of the embedding. -/
inductive RRes (σ α : Type) where
  | ok (s : σ) (t : List TraceItem) (v : α)
  | exn (s : σ) (t : List TraceItem)
  | fuel
deriving DecidableEq, Repr

/-- The `exclude_user` test of `broadcast_event`: Python
`if exclude_user and user_id == exclude_user`, where an empty string is
falsy. -/
def excludedBy (exclude : Option UserId) (uid : UserId) : Bool :=
  match exclude with
  | none => false
  | some e => if e = "" then false else decide (uid = e)

/-- The username shown for an actor id: its session's name if present,
else "Unknown". -/
def usernameOr (r : Room) (uid : UserId) : String :=
  match alookup r.users uid with
  | some s => s.username
  | none => "Unknown"

/-- Python `session.active_locks.discard(fp)`. -/
def discardLock (fp : FieldPath) (s : UserSession) : UserSession :=
  { s with active_locks := s.active_locks.filter (fun q => !decide (q = fp)) }

/-- Python `session.active_locks.add(fp)`. -/
def addLock (fp : FieldPath) (s : UserSession) : UserSession :=
  { s with active_locks :=
      if fp ∈ s.active_locks then s.active_locks
      else s.active_locks ++ [fp] }

/-- The send loop of `broadcast_event`: attempt delivery to every
non-excluded session in insertion order, collecting the trace and the
ids whose send failed. -/
def sendLoop (e : CollaborationEvent) (ex : Option UserId) :
    List (UserId × UserSession) → List TraceItem × List UserId
  | [] => ([], [])
  | (uid, s) :: rest =>
    if excludedBy ex uid then sendLoop e ex rest
    else
      let p := sendLoop e ex rest
      (.send uid e s.connected :: p.1,
       if s.connected then p.2 else uid :: p.2)

mutual

/-- `broadcast_event`: record the fan-out, run the send loop, then
remove every session whose send failed. -/
def broadcast_event : Nat → Nat → Room → CollaborationEvent →
    Option UserId → RRes Room Unit
  | 0, _, _, _, _ => .fuel
  | n + 1, now, r, e, ex =>
    let p := sendLoop e ex r.users
    match cleanupLoop n now r p.2 with
    | .ok r2 t2 _ => .ok r2 (.bcast e ex :: p.1 ++ t2) ()
    | .exn r2 t2 => .exn r2 (.bcast e ex :: p.1 ++ t2)
    | .fuel => .fuel
termination_by structural fuel _ _ _ _ => fuel

/-- The cleanup loop at the end of `broadcast_event`. -/
def cleanupLoop : Nat → Nat → Room → List UserId → RRes Room Unit
  | 0, _, _, _ => .fuel
  | _ + 1, _, r, [] => .ok r [] ()
  | n + 1, now, r, d :: ds =>
    match remove_user n now r d with
    | .ok r1 t1 _ =>
      match cleanupLoop n now r1 ds with
      | .ok r2 t2 _ => .ok r2 (t1 ++ t2) ()
      | .exn r2 t2 => .exn r2 (t1 ++ t2)
      | .fuel => .fuel
    | .exn r1 t1 => .exn r1 t1
    | .fuel => .fuel
termination_by structural fuel _ _ _ => fuel

/-- `remove_user`: no-op for an absent actor; otherwise release all its
locks, delete the session (`del` raises `KeyError` if a reentrant
cleanup already deleted it), then broadcast USER_LEFT. -/
def remove_user : Nat → Nat → Room → UserId → RRes Room Unit
  | 0, _, _, _ => .fuel
  | n + 1, now, r, uid =>
    match alookup r.users uid with
    | none => .ok r [] ()
    | some s =>
      match release_user_locks n now r uid with
      | .ok r1 t1 _ =>
        match alookup r1.users uid with
        | none => .exn r1 t1
        | some _ =>
          let r2 : Room :=
            { r1 with users := aerase r1.users uid, last_activity := now }
          let e : CollaborationEvent :=
            ⟨.user_left, r.campaign_id, uid,
             .userLeft s.username now (akeys r2.users), now⟩
          match broadcast_event n now r2 e (some uid) with
          | .ok r3 t2 _ => .ok r3 (t1 ++ t2) ()
          | .exn r3 t2 => .exn r3 (t1 ++ t2)
          | .fuel => .fuel
      | .exn r1 t1 => .exn r1 t1
      | .fuel => .fuel
termination_by structural fuel _ _ _ => fuel

/-- `release_user_locks`: release every lock in the actor's
`active_locks` snapshot. -/
def release_user_locks : Nat → Nat → Room → UserId → RRes Room Unit
  | 0, _, _, _ => .fuel
  | n + 1, now, r, uid =>
    match alookup r.users uid with
    | none => .ok r [] ()
    | some s => releaseLocksLoop n now r uid s.active_locks
termination_by structural fuel _ _ _ => fuel

/-- The snapshot loop inside `release_user_locks`. -/
def releaseLocksLoop : Nat → Nat → Room → UserId → List FieldPath →
    RRes Room Unit
  | 0, _, _, _, _ => .fuel
  | _ + 1, _, r, _, [] => .ok r [] ()
  | n + 1, now, r, uid, fp :: rest =>
    match release_lock n now r uid fp with
    | .ok r1 t1 _ =>
      match releaseLocksLoop n now r1 uid rest with
      | .ok r2 t2 _ => .ok r2 (t1 ++ t2) ()
      | .exn r2 t2 => .exn r2 (t1 ++ t2)
      | .fuel => .fuel
    | .exn r1 t1 => .exn r1 t1
    | .fuel => .fuel
termination_by structural fuel _ _ _ _ => fuel

/-- `release_lock`: only the recorded holder releases; a mismatched or
absent request is a silent no-op. -/
def release_lock : Nat → Nat → Room → UserId → FieldPath → RRes Room Unit
  | 0, _, _, _, _ => .fuel
  | n + 1, now, r, uid, fp =>
    match alookup r.content_locks fp with
    | some holder =>
      if holder = uid then
        let r2 : Room :=
          { r with content_locks := aerase r.content_locks fp,
                   users := adjust r.users uid (discardLock fp) }
        let e : CollaborationEvent :=
          ⟨.lock_released, r.campaign_id, uid,
           .lockReleased fp (usernameOr r2 uid), now⟩
        broadcast_event n now r2 e (some uid)
      else .ok r [] ()
    | none => .ok r [] ()
termination_by structural fuel _ _ _ _ => fuel

end

/-- `acquire_lock`: a try-lock.  Fails at once if any holder exists;
otherwise records the holder, adds the path to the holder's session (if
it has one) and broadcasts LOCK_ACQUIRED. -/
def acquire_lock (fuel now : Nat) (r : Room) (uid : UserId)
    (fp : FieldPath) : RRes Room Bool :=
  match alookup r.content_locks fp with
  | some _ => .ok r [] false
  | none =>
    let r1 : Room :=
      { r with
        content_locks := ainsert r.content_locks fp uid,
        users := adjust r.users uid (addLock fp) }
    let e : CollaborationEvent :=
      ⟨.lock_acquired, r.campaign_id, uid,
       .lockAcquired fp (usernameOr r1 uid), now⟩
    match broadcast_event fuel now r1 e (some uid) with
    | .ok r2 t _ => .ok r2 t true
    | .exn r2 t => .exn r2 t
    | .fuel => .fuel

/-- The SYNC_RESPONSE event `send_current_state` builds: participants
other than the recipient, the lock table with holder names, and the
last 10 change entries. -/
def syncEvent (now : Nat) (r : Room) (sid : UserId) : CollaborationEvent :=
  ⟨.sync_response, r.campaign_id, "system",
   .syncResponse
     ((r.users.filter (fun p => !decide (p.1 = sid))).map
       (fun p =>
         ⟨p.1, p.2.username, p.2.cursor_position, p.2.current_selection,
          p.2.joined_at⟩))
     (r.content_locks.map (fun p => ⟨p.1, p.2, usernameOr r p.2⟩))
     (r.change_history.drop (r.change_history.length - 10)), now⟩

/-- `send_current_state`: build the SYNC_RESPONSE snapshot from the
current room state and send it to the given session only. -/
def send_current_state (now : Nat) (r : Room) (s : UserSession) :
    List TraceItem :=
  [.send s.user_id (syncEvent now r s.user_id) s.connected]

/-- `add_user`: register the session, broadcast USER_JOINED to everyone
else, then unicast the snapshot to the joiner. -/
def add_user (fuel now : Nat) (r : Room) (s : UserSession) :
    RRes Room Unit :=
  let r1 : Room :=
    { r with users := ainsert r.users s.user_id s, last_activity := now }
  let e : CollaborationEvent :=
    ⟨.user_joined, r.campaign_id, s.user_id,
     .userJoined s.username s.joined_at (akeys r1.users), now⟩
  match broadcast_event fuel now r1 e (some s.user_id) with
  | .ok r2 t _ => .ok r2 (t ++ send_current_state now r2 s) ()
  | .exn r2 t => .exn r2 t
  | .fuel => .fuel

/-- `send_conflict_notification`: unicast CONFLICT_DETECTED to the
requester, naming the current holder; silently dropped if the requester
has no session. -/
def send_conflict (now : Nat) (r : Room) (uid : UserId) (fp : FieldPath) :
    List TraceItem :=
  match alookup r.users uid with
  | none => []
  | some s =>
    let lb := alookup r.content_locks fp
    let lbn :=
      match lb with
      | some u => usernameOr r u
      | none => "Unknown"
    [.send uid
      ⟨.conflict_detected, r.campaign_id, uid,
       .conflictDetected fp lb lbn
         ("Field is currently being edited by " ++ lbn), now⟩ s.connected]

/-- The body of the `try` block of `persist_change`: which database
steps raise for a given outcome. -/
def persistAttempt (db : DbOutcome) : Except String Unit :=
  match db with
  | .getRaises => .error "get"
  | .saveRaises => .error "save"
  | .notFound => .ok ()
  | .dbOk => .ok ()

/-- `persist_change`: fire-and-forget write; any raise is caught and
logged, so the room is untouched either way. -/
def persist_change (r : Room) (entry : ChangeEntry) (db : DbOutcome) :
    Room × List TraceItem :=
  match persistAttempt db with
  | .error _ => (r, [.persist entry db])
  | .ok _ => (r, [.persist entry db])

/-- The conflict test of `handle_content_change`: the path is locked and
the holder is someone else. -/
def conflictsWith (r : Room) (uid : UserId) (fp : FieldPath) : Bool :=
  match alookup r.content_locks fp with
  | some holder => !decide (holder = uid)
  | none => false

/-- `handle_content_change`: reject-and-notify on a foreign lock;
otherwise append to the change log, broadcast CONTENT_CHANGED, then
attempt persistence. -/
def handle_content_change (fuel now : Nat) (r : Room) (uid : UserId)
    (fp : FieldPath) (oldv newv op_kind : String) (db : DbOutcome) :
    RRes Room Unit :=
  if conflictsWith r uid fp then .ok r (send_conflict now r uid fp) ()
  else
    let entry : ChangeEntry := ⟨now, uid, op_kind, fp, oldv, newv⟩
    let r1 : Room :=
      { r with change_history := r.change_history ++ [entry],
               last_activity := now }
    let e : CollaborationEvent :=
      ⟨.content_changed, r.campaign_id, uid,
       .contentChanged fp oldv newv op_kind now, now⟩
    match broadcast_event fuel now r1 e (some uid) with
    | .ok r2 t _ =>
      let pc := persist_change r2 entry db
      .ok pc.1 (t ++ pc.2) ()
    | .exn r2 t => .exn r2 t
    | .fuel => .fuel

/-- The `CollaborationManager`'s directory of rooms. -/
structure Manager where
  rooms : List (String × Room)
deriving DecidableEq, Repr

/-- `get_or_create_room`: lazily construct a room on first reference. -/
def get_or_create_room (now : Nat) (m : Manager) (cid : String) :
    Manager × Room :=
  match alookup m.rooms cid with
  | some r => (m, r)
  | none =>
    let r := emptyRoom cid now
    (⟨ainsert m.rooms cid r⟩, r)

/-- `leave_campaign`: remove the user from the room, then delete the
room at once if its session map is now empty. -/
def leave_campaign (fuel now : Nat) (m : Manager) (cid : String)
    (uid : UserId) : RRes Manager Unit :=
  match alookup m.rooms cid with
  | none => .ok m [] ()
  | some r =>
    match remove_user fuel now r uid with
    | .ok r1 t _ =>
      if r1.users.isEmpty then
        .ok ⟨aerase (ainsert m.rooms cid r1) cid⟩ t ()
      else .ok ⟨ainsert m.rooms cid r1⟩ t ()
    | .exn r1 t => .exn ⟨ainsert m.rooms cid r1⟩ t
    | .fuel => .fuel

/-- `cleanup_inactive_rooms`: the periodic sweep deletes every room
whose `last_activity` is more than 3600 seconds old, whether or not it
still has sessions. -/
def cleanup_inactive_rooms (now : Nat) (m : Manager) : Manager :=
  ⟨m.rooms.filter
    (fun p => !(decide (3600 < (now : Int) - (p.2.last_activity : Int))))⟩

/-! Specification-level definitions: trace observations, the room
invariant, reachability, and the concrete states used by witnesses and
counterexamples. -/

/-- The trace produced by the send loop of one broadcast: one attempt
per non-excluded session, in insertion order. -/
def mainSends (e : CollaborationEvent) (ex : Option UserId)
    (us : List (UserId × UserSession)) : List TraceItem :=
  (us.filter (fun p => !excludedBy ex p.1)).map
    (fun p => .send p.1 e p.2.connected)

/-- The sessions whose send fails during one broadcast's send loop. -/
def failedIds (ex : Option UserId) (us : List (UserId × UserSession)) :
    List UserId :=
  (us.filter (fun p => !excludedBy ex p.1 && !p.2.connected)).map
    (fun p => p.1)

/-- How many send attempts a trace holds for a given recipient. -/
def countRecip (uid : UserId) (t : List TraceItem) : Nat :=
  (t.filter (fun i =>
    match i with
    | .send rcp _ _ => decide (rcp = uid)
    | _ => false)).length

/-- How many send attempts of a given event kind a trace holds for a
given recipient. -/
def sendsTo (uid : UserId) (ty : EventType) (t : List TraceItem) : Nat :=
  (t.filter (fun i =>
    match i with
    | .send rcp e _ => decide (rcp = uid) && decide (e.event_type = ty)
    | _ => false)).length

/-- How many broadcasts of a given event kind a trace starts. -/
def bcastsOf (ty : EventType) (t : List TraceItem) : Nat :=
  (t.filter (fun i =>
    match i with
    | .bcast e _ => decide (e.event_type = ty)
    | _ => false)).length

/-- Whether a trace item is a persistence attempt. -/
def isPersist : TraceItem → Bool
  | .persist _ _ => true
  | _ => false

/-- Replace the recorded database outcome of persistence attempts by a
fixed one, to compare executions that differ only in the store's
behaviour. -/
def scrubDb : TraceItem → TraceItem
  | .persist en _ => .persist en .dbOk
  | i => i

/-- Scrub a whole result. -/
def scrubRes : RRes Room Unit → RRes Room Unit
  | .ok r t v => .ok r (t.map scrubDb) v
  | .exn r t => .exn r (t.map scrubDb)
  | .fuel => .fuel

/-- The item is a send or broadcast of one of the given kinds (never a
persistence attempt). -/
def itemTyped (tys : List EventType) : TraceItem → Prop
  | .send _ e _ => e.event_type ∈ tys
  | .bcast e _ => e.event_type ∈ tys
  | .persist _ _ => False

/-- The only event kinds the disconnect cleanup can emit. -/
def cleanupTypes : List EventType := [.user_left, .lock_released]

/-- The reachable-state invariant of a room: duplicate-free keys, every
lock owned by a present session, and every session's `active_locks`
agreeing with the lock table. -/
def InvRoom (r : Room) : Prop :=
  (akeys r.users).Nodup ∧ (akeys r.content_locks).Nodup ∧
  (∀ p u, (p, u) ∈ r.content_locks →
    ∃ s, alookup r.users u = some s ∧ p ∈ s.active_locks) ∧
  (∀ u s, (u, s) ∈ r.users →
    ∀ p, p ∈ s.active_locks → alookup r.content_locks p = some u)

/-- What the cleanup machinery can do to a room: sessions and locks only
disappear or shrink, the change log and id are untouched. -/
def Shrink (r r' : Room) : Prop :=
  r'.campaign_id = r.campaign_id ∧
  r'.change_history = r.change_history ∧
  (∀ q, q ∈ r'.content_locks → q ∈ r.content_locks) ∧
  (∀ u s', alookup r'.users u = some s' →
    ∃ s, alookup r.users u = some s ∧ s'.user_id = s.user_id ∧
      s'.username = s.username ∧ s'.connected = s.connected ∧
      s'.joined_at = s.joined_at ∧
      (∀ p, p ∈ s'.active_locks → p ∈ s.active_locks))

/-- A lock held by `A` on `P` while no session's `active_locks` records
`P`: the orphan shape produced by a non-member acquire. -/
def OrphanLock (A : UserId) (P : FieldPath) (r : Room) : Prop :=
  alookup r.content_locks P = some A ∧
  ∀ u s, (u, s) ∈ r.users → P ∉ s.active_locks

/-- One public room operation completing normally, with no precondition:
the reading of "any sequence of the room's public operations". -/
inductive Step : Room → Room → Prop where
  | addUser (fuel now : Nat) (r r' : Room) (uid uname : String)
      (conn : Bool) (t : List TraceItem) (v : Unit) :
      add_user fuel now r (UserSession.fresh uid uname conn now) =
        .ok r' t v → Step r r'
  | removeUser (fuel now : Nat) (r r' : Room) (uid : UserId)
      (t : List TraceItem) (v : Unit) :
      remove_user fuel now r uid = .ok r' t v → Step r r'
  | acquire (fuel now : Nat) (r r' : Room) (uid : UserId)
      (fp : FieldPath) (t : List TraceItem) (b : Bool) :
      acquire_lock fuel now r uid fp = .ok r' t b → Step r r'
  | release (fuel now : Nat) (r r' : Room) (uid : UserId)
      (fp : FieldPath) (t : List TraceItem) (v : Unit) :
      release_lock fuel now r uid fp = .ok r' t v → Step r r'
  | change (fuel now : Nat) (r r' : Room) (uid : UserId)
      (fp : FieldPath) (ov nv ok : String) (db : DbOutcome)
      (t : List TraceItem) (v : Unit) :
      handle_content_change fuel now r uid fp ov nv ok db = .ok r' t v →
      Step r r'
  | bcast (fuel now : Nat) (r r' : Room) (e : CollaborationEvent)
      (ex : Option UserId) (t : List TraceItem) (v : Unit) :
      broadcast_event fuel now r e ex = .ok r' t v → Step r r'

/-- A public room operation under the discipline the callers of the
engine are meant to respect: `add_user` only for an absent actor id and
`acquire_lock` only for a present one. -/
inductive StepD : Room → Room → Prop where
  | addUser (fuel now : Nat) (r r' : Room) (uid uname : String)
      (conn : Bool) (t : List TraceItem) (v : Unit) :
      alookup r.users uid = none →
      add_user fuel now r (UserSession.fresh uid uname conn now) =
        .ok r' t v → StepD r r'
  | removeUser (fuel now : Nat) (r r' : Room) (uid : UserId)
      (t : List TraceItem) (v : Unit) :
      remove_user fuel now r uid = .ok r' t v → StepD r r'
  | acquire (fuel now : Nat) (r r' : Room) (uid : UserId)
      (fp : FieldPath) (t : List TraceItem) (b : Bool) :
      (alookup r.users uid).isSome →
      acquire_lock fuel now r uid fp = .ok r' t b → StepD r r'
  | release (fuel now : Nat) (r r' : Room) (uid : UserId)
      (fp : FieldPath) (t : List TraceItem) (v : Unit) :
      release_lock fuel now r uid fp = .ok r' t v → StepD r r'
  | change (fuel now : Nat) (r r' : Room) (uid : UserId)
      (fp : FieldPath) (ov nv ok : String) (db : DbOutcome)
      (t : List TraceItem) (v : Unit) :
      handle_content_change fuel now r uid fp ov nv ok db = .ok r' t v →
      StepD r r'
  | bcast (fuel now : Nat) (r r' : Room) (e : CollaborationEvent)
      (ex : Option UserId) (t : List TraceItem) (v : Unit) :
      broadcast_event fuel now r e ex = .ok r' t v → StepD r r'

/-- Reachable from an empty room by arbitrary public operations. -/
def ReachableAny (r : Room) : Prop :=
  ∃ cid now, Relation.ReflTransGen Step (emptyRoom cid now) r

/-- Reachable from an empty room by disciplined public operations. -/
def ReachableD (r : Room) : Prop :=
  ∃ cid now, Relation.ReflTransGen StepD (emptyRoom cid now) r

/-- Scenario A of the spec, executed concretely: A locks
`campaign.budget`, B's acquire fails with no broadcast, A releases, B's
acquire then succeeds. -/
def scenarioA : Bool :=
  let r0 : Room :=
    ⟨"c", [("a", UserSession.fresh "a" "Alice" true 0),
           ("b", UserSession.fresh "b" "Bob" true 0)], [], [], 0, 0⟩
  match acquire_lock 6 1 r0 "a" "campaign.budget" with
  | .ok r1 _ true =>
    match acquire_lock 6 2 r1 "b" "campaign.budget" with
    | .ok r2 t2 false =>
      t2.isEmpty &&
      (match release_lock 6 3 r2 "a" "campaign.budget" with
       | .ok r3 _ _ =>
         (match acquire_lock 6 4 r3 "b" "campaign.budget" with
          | .ok _ _ b => b
          | _ => false)
       | _ => false)
    | _ => false
  | _ => false

/-- The room a single non-member acquire produces from an empty room. -/
def c2bad : Room := ⟨"c", [], [("f", "a")], [], 0, 0⟩

/-- Room with one session `b` holding the lock on `f`. -/
def c3room : Room :=
  ⟨"c", [("b", UserSession.fresh "b" "Bob" true 0)], [("f", "b")], [], 0, 0⟩

/-- Room with a disconnected member `u1` owning an orphan lock (not in
its `active_locks`), plus a connected member `u2`. -/
def c5room : Room :=
  ⟨"c", [("u1", ⟨"u1", "U1", false, 0, none, none, []⟩),
         ("u2", UserSession.fresh "u2" "U2" true 0)],
   [("l", "u1")], [], 0, 0⟩

/-- An arbitrary event to broadcast in the C5 counterexample. -/
def c5event : CollaborationEvent :=
  ⟨.comment_added, "c", "z", .lockAcquired "x" "y", 1⟩

/-- Room with a single disconnected member `b`. -/
def c6room : Room :=
  ⟨"c", [("b", ⟨"b", "Bob", false, 0, none, none, []⟩)], [], [], 0, 0⟩

/-- A connected joining session for the C6 counterexample. -/
def c6sess : UserSession := UserSession.fresh "j" "Joy" true 5

/-- A room with one connected participant, for the C7 states. -/
def c7room : Room :=
  ⟨"c", [("a", UserSession.fresh "a" "Al" true 0)], [], [], 0, 0⟩

/-- A directory holding one room with one connected participant. -/
def c7m : Manager := ⟨[("c", c7room)]⟩

/-- Room with members `a` and `b` where `b` holds the lock on `f`. -/
def c3room2 : Room :=
  ⟨"c", [("a", UserSession.fresh "a" "Alice" true 0),
         ("b", ⟨"b", "Bob", true, 0, none, none, ["f"]⟩)],
   [("f", "b")], [], 0, 0⟩

/-- Room with two connected members and no locks. -/
def c8room : Room :=
  ⟨"c", [("a", UserSession.fresh "a" "Alice" true 0),
         ("b", UserSession.fresh "b" "Bob" true 0)], [], [], 0, 0⟩

/-- The room state right after `add_user` registers the joiner. -/
def joinRoom (r : Room) (s : UserSession) (now : Nat) : Room :=
  { r with users := ainsert r.users s.user_id s, last_activity := now }

/-- The USER_JOINED event `add_user` broadcasts. -/
def joinEvent (r : Room) (s : UserSession) (now : Nat) :
    CollaborationEvent :=
  ⟨.user_joined, r.campaign_id, s.user_id,
   .userJoined s.username s.joined_at (akeys (ainsert r.users s.user_id s)),
   now⟩

/-! Association-list lemmas. -/

@[simp]
theorem akeys_nil {β : Type} : akeys ([] : List (String × β)) = [] := rfl

@[simp]
theorem akeys_cons {β : Type} {p : String × β} {rest : List (String × β)} :
    akeys (p :: rest) = p.1 :: akeys rest := rfl

theorem akeys_append {β : Type} {m m' : List (String × β)} :
    akeys (m ++ m') = akeys m ++ akeys m' := by
  simp [akeys]

theorem mem_akeys_of_mem {β : Type} {m : List (String × β)}
    {q : String × β} (h : q ∈ m) : q.1 ∈ akeys m :=
  List.mem_map_of_mem _ h

theorem alookup_eq_none {β : Type} {m : List (String × β)} {k : String} :
    alookup m k = none ↔ k ∉ akeys m := by
  induction m with
  | nil => simp [alookup]
  | cons p rest ih =>
    obtain ⟨k', v⟩ := p
    rw [akeys_cons]
    by_cases h : k' = k
    · subst h
      simp [alookup]
    · rw [alookup, if_neg h, ih, List.mem_cons]
      constructor
      · intro hn hc
        rcases hc with he | hm
        · exact h he.symm
        · exact hn hm
      · intro hn hm
        exact hn (Or.inr hm)

theorem alookup_mem {β : Type} {m : List (String × β)} {k : String}
    {v : β} (h : alookup m k = some v) : (k, v) ∈ m := by
  induction m with
  | nil => simp [alookup] at h
  | cons p rest ih =>
    obtain ⟨k', v'⟩ := p
    by_cases hk : k' = k
    · subst hk
      rw [alookup, if_pos rfl] at h
      injection h with h
      subst h
      exact List.mem_cons_self _ _
    · rw [alookup, if_neg hk] at h
      exact List.mem_cons_of_mem _ (ih h)

theorem mem_alookup {β : Type} {m : List (String × β)} {k : String}
    {v : β} (nd : (akeys m).Nodup) (h : (k, v) ∈ m) :
    alookup m k = some v := by
  induction m with
  | nil => simp at h
  | cons p rest ih =>
    obtain ⟨k', v'⟩ := p
    rw [akeys_cons, List.nodup_cons] at nd
    by_cases hk : k' = k
    · subst hk
      rw [alookup, if_pos rfl]
      rcases List.mem_cons.1 h with h0 | h0
      · injection h0 with h1 h2
        rw [h2]
      · exact absurd (mem_akeys_of_mem h0) nd.1
    · rw [alookup, if_neg hk]
      rcases List.mem_cons.1 h with h0 | h0
      · injection h0 with h1 h2
        exact absurd h1.symm hk
      · exact ih nd.2 h0

theorem alookup_isSome_iff {β : Type} {m : List (String × β)}
    {k : String} : (alookup m k).isSome = true ↔ k ∈ akeys m := by
  rcases h : alookup m k with _ | v
  · simp [alookup_eq_none.1 h]
  · simp [mem_akeys_of_mem (alookup_mem h)]

theorem alookup_ainsert_self {β : Type} {m : List (String × β)}
    {k : String} {v : β} : alookup (ainsert m k v) k = some v := by
  induction m with
  | nil => simp [ainsert, alookup]
  | cons p rest ih =>
    obtain ⟨k', v'⟩ := p
    by_cases h : k' = k <;> simp [ainsert, alookup, h, ih]

theorem alookup_ainsert_ne {β : Type} {m : List (String × β)}
    {k k' : String} {v : β} (h : k' ≠ k) :
    alookup (ainsert m k v) k' = alookup m k' := by
  induction m with
  | nil =>
    have hne : ¬(k = k') := fun he => h he.symm
    simp [ainsert, alookup, hne]
  | cons p rest ih =>
    obtain ⟨k0, v0⟩ := p
    rw [ainsert]
    by_cases h0 : k0 = k
    · subst h0
      have hne : ¬(k0 = k') := fun he => h he.symm
      rw [if_pos rfl, alookup, alookup, if_neg hne, if_neg hne]
    · rw [if_neg h0, alookup, alookup]
      by_cases h1 : k0 = k' <;> simp [h1, ih]

theorem mem_ainsert {β : Type} {m : List (String × β)} {k : String}
    {v : β} {q : String × β} (h : q ∈ ainsert m k v) :
    q ∈ m ∨ q = (k, v) := by
  induction m with
  | nil =>
    rw [ainsert] at h
    right
    simpa using h
  | cons p rest ih =>
    obtain ⟨k0, v0⟩ := p
    rw [ainsert] at h
    by_cases h0 : k0 = k
    · rw [if_pos h0] at h
      rcases List.mem_cons.1 h with h1 | h1
      · right; exact h1
      · left; exact List.mem_cons_of_mem _ h1
    · rw [if_neg h0] at h
      rcases List.mem_cons.1 h with h1 | h1
      · left; simp [h1]
      · rcases ih h1 with h2 | h2
        · left; exact List.mem_cons_of_mem _ h2
        · right; exact h2

theorem akeys_ainsert_of_mem {β : Type} {m : List (String × β)}
    {k : String} {v : β} (h : k ∈ akeys m) :
    akeys (ainsert m k v) = akeys m := by
  induction m with
  | nil => simp at h
  | cons p rest ih =>
    obtain ⟨k0, v0⟩ := p
    rw [akeys_cons] at h
    rw [ainsert]
    by_cases h0 : k0 = k
    · rw [if_pos h0, akeys_cons, akeys_cons]
      simp [h0]
    · rcases List.mem_cons.1 h with h1 | h1
      · exact absurd h1.symm h0
      · rw [if_neg h0, akeys_cons, akeys_cons, ih h1]

theorem ainsert_of_not_mem {β : Type} {m : List (String × β)}
    {k : String} {v : β} (h : k ∉ akeys m) :
    ainsert m k v = m ++ [(k, v)] := by
  induction m with
  | nil => simp [ainsert]
  | cons p rest ih =>
    obtain ⟨k0, v0⟩ := p
    rw [akeys_cons] at h
    have h1 : ¬(k0 = k) := fun he => h (he ▸ List.mem_cons_self _ _)
    have h2 : k ∉ akeys rest := fun hm => h (List.mem_cons_of_mem _ hm)
    rw [ainsert, if_neg h1, ih h2]
    rfl

theorem nodup_akeys_ainsert {β : Type} {m : List (String × β)}
    {k : String} {v : β} (nd : (akeys m).Nodup) :
    (akeys (ainsert m k v)).Nodup := by
  by_cases h : k ∈ akeys m
  · simpa [akeys_ainsert_of_mem h] using nd
  · rw [ainsert_of_not_mem h, akeys_append, List.nodup_append]
    refine ⟨nd, List.nodup_singleton _, ?_⟩
    intro x hx hk
    rw [show akeys [(k, v)] = [k] from rfl, List.mem_singleton] at hk
    exact h (hk ▸ hx)

theorem mem_aerase {β : Type} {m : List (String × β)} {k : String}
    {q : String × β} : q ∈ aerase m k ↔ q ∈ m ∧ ¬(q.1 = k) := by
  simp [aerase, List.mem_filter]

theorem aerase_cons {β : Type} {k0 : String} {v0 : β}
    {rest : List (String × β)} {k : String} :
    aerase ((k0, v0) :: rest) k =
      if k0 = k then aerase rest k else (k0, v0) :: aerase rest k := by
  by_cases h : k0 = k <;> simp [aerase, List.filter_cons, h]

theorem alookup_aerase_self {β : Type} {m : List (String × β)}
    {k : String} : alookup (aerase m k) k = none := by
  rw [alookup_eq_none]
  intro h
  obtain ⟨q, hq, he⟩ := List.mem_map.1 h
  exact (mem_aerase.1 hq).2 he

theorem alookup_aerase_ne {β : Type} {m : List (String × β)}
    {k k' : String} (h : k' ≠ k) :
    alookup (aerase m k) k' = alookup m k' := by
  induction m with
  | nil => simp [aerase, alookup]
  | cons p rest ih =>
    obtain ⟨k0, v0⟩ := p
    rw [aerase_cons]
    by_cases h0 : k0 = k
    · rw [if_pos h0]
      have hne : ¬(k0 = k') := fun he => h (he ▸ h0)
      rw [alookup, if_neg hne]
      exact ih
    · rw [if_neg h0, alookup, alookup]
      by_cases h1 : k0 = k' <;> simp [h1, ih]

theorem akeys_aerase_sublist {β : Type} {m : List (String × β)}
    {k : String} : (akeys (aerase m k)).Sublist (akeys m) :=
  List.Sublist.map _ (List.filter_sublist m)

theorem nodup_akeys_aerase {β : Type} {m : List (String × β)}
    {k : String} (nd : (akeys m).Nodup) : (akeys (aerase m k)).Nodup :=
  List.Nodup.sublist akeys_aerase_sublist nd

theorem adjust_cons_eq {β : Type} {k0 : String} {v0 : β}
    {rest : List (String × β)} {k : String} {f : β → β} (h : k0 = k) :
    adjust ((k0, v0) :: rest) k f = (k0, f v0) :: adjust rest k f := by
  simp [adjust, h]

theorem adjust_cons_ne {β : Type} {k0 : String} {v0 : β}
    {rest : List (String × β)} {k : String} {f : β → β} (h : ¬(k0 = k)) :
    adjust ((k0, v0) :: rest) k f = (k0, v0) :: adjust rest k f := by
  simp [adjust, h]

theorem alookup_adjust {β : Type} {m : List (String × β)} {k : String}
    {f : β → β} (k' : String) :
    alookup (adjust m k f) k' =
      if k' = k then (alookup m k).map f else alookup m k' := by
  induction m with
  | nil => by_cases h : k' = k <;> simp [adjust, alookup, h]
  | cons p rest ih =>
    obtain ⟨k0, v0⟩ := p
    by_cases h0 : k0 = k
    · rw [adjust_cons_eq h0]
      subst h0
      by_cases h1 : k' = k0
      · subst h1
        simp [alookup]
      · have hne : ¬(k0 = k') := fun he => h1 he.symm
        simp [alookup, hne, h1, ih]
    · rw [adjust_cons_ne h0]
      by_cases h1 : k0 = k'
      · subst h1
        simp [alookup, h0]
      · simp [alookup, h0, h1, ih]

theorem akeys_adjust {β : Type} {m : List (String × β)} {k : String}
    {f : β → β} : akeys (adjust m k f) = akeys m := by
  induction m with
  | nil => simp [adjust]
  | cons p rest ih =>
    obtain ⟨k0, v0⟩ := p
    by_cases h : k0 = k
    · rw [adjust_cons_eq h, akeys_cons, akeys_cons, ih]
    · rw [adjust_cons_ne h, akeys_cons, akeys_cons, ih]

theorem mem_adjust {β : Type} {m : List (String × β)} {k : String}
    {f : β → β} {q : String × β} (h : q ∈ adjust m k f) :
    (q ∈ m ∧ ¬(q.1 = k)) ∨ ∃ v, (k, v) ∈ m ∧ q = (k, f v) := by
  induction m with
  | nil => simp [adjust] at h
  | cons p rest ih =>
    obtain ⟨k0, v0⟩ := p
    by_cases hk : k0 = k
    · rw [adjust_cons_eq hk] at h
      subst hk
      rcases List.mem_cons.1 h with h0 | h0
      · right
        exact ⟨v0, List.mem_cons_self _ _, h0⟩
      · rcases ih h0 with ⟨h1, h2⟩ | ⟨v, hv, he⟩
        · left
          exact ⟨List.mem_cons_of_mem _ h1, h2⟩
        · right
          exact ⟨v, List.mem_cons_of_mem _ hv, he⟩
    · rw [adjust_cons_ne hk] at h
      rcases List.mem_cons.1 h with h0 | h0
      · left
        refine ⟨by simp [h0], ?_⟩
        rw [h0]
        exact hk
      · rcases ih h0 with ⟨h1, h2⟩ | ⟨v, hv, he⟩
        · left
          exact ⟨List.mem_cons_of_mem _ h1, h2⟩
        · right
          exact ⟨v, List.mem_cons_of_mem _ hv, he⟩


/-! Send-loop and trace-counting lemmas. -/

theorem mainSends_cons {e : CollaborationEvent} {ex : Option UserId}
    {k : UserId} {s : UserSession} {rest : List (UserId × UserSession)} :
    mainSends e ex ((k, s) :: rest) =
      if excludedBy ex k then mainSends e ex rest
      else .send k e s.connected :: mainSends e ex rest := by
  by_cases h : excludedBy ex k <;> simp [mainSends, List.filter_cons, h]

theorem sendLoop_fst {e : CollaborationEvent} {ex : Option UserId} :
    ∀ us, (sendLoop e ex us).1 = mainSends e ex us := by
  intro us
  induction us with
  | nil => simp [sendLoop, mainSends]
  | cons p rest ih =>
    obtain ⟨k, s⟩ := p
    rw [mainSends_cons]
    by_cases h : excludedBy ex k <;> simp [sendLoop, h, ih]

theorem failedIds_cons {ex : Option UserId} {k : UserId}
    {s : UserSession} {rest : List (UserId × UserSession)} :
    failedIds ex ((k, s) :: rest) =
      if excludedBy ex k || s.connected then failedIds ex rest
      else k :: failedIds ex rest := by
  by_cases h : excludedBy ex k
  · simp [failedIds, List.filter_cons, h]
  · by_cases hc : s.connected <;> simp [failedIds, List.filter_cons, h, hc]

theorem sendLoop_snd {e : CollaborationEvent} {ex : Option UserId} :
    ∀ us, (sendLoop e ex us).2 = failedIds ex us := by
  intro us
  induction us with
  | nil => simp [sendLoop, failedIds]
  | cons p rest ih =>
    obtain ⟨k, s⟩ := p
    rw [failedIds_cons]
    by_cases h : excludedBy ex k
    · simp [sendLoop, h, ih]
    · by_cases hc : s.connected <;> simp [sendLoop, h, hc, ih]

theorem failedIds_nil_of_connected {ex : Option UserId}
    {us : List (UserId × UserSession)}
    (h : ∀ p ∈ us, p.2.connected = true) : failedIds ex us = [] := by
  induction us with
  | nil => rfl
  | cons p rest ih =>
    obtain ⟨k, s⟩ := p
    rw [failedIds_cons]
    have hc : s.connected = true := h (k, s) (List.mem_cons_self _ _)
    simp [hc]
    exact ih (fun q hq => h q (List.mem_cons_of_mem _ hq))

theorem mem_failedIds {ex : Option UserId}
    {us : List (UserId × UserSession)} {d : UserId}
    (h : d ∈ failedIds ex us) : d ∈ akeys us := by
  obtain ⟨q, hq, he⟩ := List.mem_map.1 h
  exact he ▸ mem_akeys_of_mem (List.mem_filter.1 hq).1

theorem mainSends_mem {e : CollaborationEvent} {ex : Option UserId}
    {us : List (UserId × UserSession)} {i : TraceItem}
    (h : i ∈ mainSends e ex us) : ∃ rcp c, i = .send rcp e c := by
  obtain ⟨q, _, he⟩ := List.mem_map.1 h
  exact ⟨q.1, q.2.connected, he.symm⟩

theorem not_excludedBy_of_ne {X u : UserId} (h : u ≠ X) :
    excludedBy (some X) u = false := by
  by_cases h0 : X = "" <;> simp [excludedBy, h0, h]

theorem countRecip_append {u : UserId} {t1 t2 : List TraceItem} :
    countRecip u (t1 ++ t2) = countRecip u t1 + countRecip u t2 := by
  simp [countRecip, List.filter_append]

theorem sendsTo_append {u : UserId} {ty : EventType}
    {t1 t2 : List TraceItem} :
    sendsTo u ty (t1 ++ t2) = sendsTo u ty t1 + sendsTo u ty t2 := by
  simp [sendsTo, List.filter_append]

theorem bcastsOf_append {ty : EventType} {t1 t2 : List TraceItem} :
    bcastsOf ty (t1 ++ t2) = bcastsOf ty t1 + bcastsOf ty t2 := by
  simp [bcastsOf, List.filter_append]

theorem countRecip_mainSends_zero_of_not_mem {e : CollaborationEvent}
    {ex : Option UserId} {u : UserId} :
    ∀ us, u ∉ akeys us → countRecip u (mainSends e ex us) = 0 := by
  intro us
  induction us with
  | nil => intro _; rfl
  | cons p rest ih =>
    obtain ⟨k, s⟩ := p
    intro h
    rw [akeys_cons] at h
    have hk : ¬(k = u) := fun he => h (he ▸ List.mem_cons_self _ _)
    have hr : u ∉ akeys rest := fun hm => h (List.mem_cons_of_mem _ hm)
    rw [mainSends_cons]
    by_cases hx : excludedBy ex k
    · simp [hx, ih hr]
    · simp [hx, countRecip, List.filter_cons, hk]
      simpa [countRecip] using ih hr

theorem countRecip_mainSends_zero_of_excluded {e : CollaborationEvent}
    {ex : Option UserId} {u : UserId} (hx : excludedBy ex u = true) :
    ∀ us, countRecip u (mainSends e ex us) = 0 := by
  intro us
  induction us with
  | nil => rfl
  | cons p rest ih =>
    obtain ⟨k, s⟩ := p
    rw [mainSends_cons]
    by_cases h : excludedBy ex k
    · simp [h, ih]
    · have hk : ¬(k = u) := by
        intro he
        subst he
        exact h hx
      simp [h, countRecip, List.filter_cons, hk]
      simpa [countRecip] using ih

theorem countRecip_mainSends_one {e : CollaborationEvent}
    {ex : Option UserId} {u : UserId} :
    ∀ us, (akeys us).Nodup → u ∈ akeys us → excludedBy ex u = false →
      countRecip u (mainSends e ex us) = 1 := by
  intro us
  induction us with
  | nil => intro _ h _; simp at h
  | cons p rest ih =>
    obtain ⟨k, s⟩ := p
    intro nd hm hx
    rw [akeys_cons, List.nodup_cons] at nd
    rw [akeys_cons] at hm
    rw [mainSends_cons]
    rcases List.mem_cons.1 hm with he | hm0
    · subst he
      rw [if_neg (by simp [hx])]
      have h0 : countRecip u (mainSends e ex rest) = 0 :=
        countRecip_mainSends_zero_of_not_mem rest nd.1
      simp [countRecip, List.filter_cons]
      simpa [countRecip] using h0
    · have hk : ¬(k = u) := by
        intro he
        subst he
        exact nd.1 hm0
      by_cases h : excludedBy ex k
      · simp [h, ih nd.2 hm0 hx]
      · simp [h, countRecip, List.filter_cons, hk]
        simpa [countRecip] using ih nd.2 hm0 hx

theorem sendsTo_mainSends_of_type {e : CollaborationEvent}
    {ex : Option UserId} {u : UserId} {ty : EventType}
    (hty : e.event_type = ty) :
    ∀ us, sendsTo u ty (mainSends e ex us) =
      countRecip u (mainSends e ex us) := by
  intro us
  induction us with
  | nil => rfl
  | cons p rest ih =>
    obtain ⟨k, s⟩ := p
    rw [mainSends_cons]
    by_cases h : excludedBy ex k
    · rw [if_pos h]
      exact ih
    · rw [if_neg h]
      by_cases hk : k = u
      · subst hk
        have h1 : sendsTo k ty (TraceItem.send k e s.connected :: mainSends e ex rest) =
            1 + sendsTo k ty (mainSends e ex rest) := by
          simp [sendsTo, List.filter_cons, hty, Nat.add_comm]
        have h2 : countRecip k (TraceItem.send k e s.connected :: mainSends e ex rest) =
            1 + countRecip k (mainSends e ex rest) := by
          simp [countRecip, List.filter_cons, Nat.add_comm]
        rw [h1, h2, ih]
      · have h1 : sendsTo u ty (TraceItem.send k e s.connected :: mainSends e ex rest) =
            sendsTo u ty (mainSends e ex rest) := by
          simp [sendsTo, List.filter_cons, hk]
        have h2 : countRecip u (TraceItem.send k e s.connected :: mainSends e ex rest) =
            countRecip u (mainSends e ex rest) := by
          simp [countRecip, List.filter_cons, hk]
        rw [h1, h2, ih]

theorem sendsTo_mainSends_one {e : CollaborationEvent}
    {ex : Option UserId} {u : UserId} {ty : EventType} :
    ∀ us, (akeys us).Nodup → u ∈ akeys us → excludedBy ex u = false →
      e.event_type = ty → sendsTo u ty (mainSends e ex us) = 1 := by
  intro us nd hm hx hty
  rw [sendsTo_mainSends_of_type hty]
  exact countRecip_mainSends_one us nd hm hx

theorem itemTyped_mono {tys tys2 : List EventType} {i : TraceItem}
    (hsub : ∀ ty ∈ tys, ty ∈ tys2) (h : itemTyped tys i) :
    itemTyped tys2 i := by
  cases i with
  | send rcp e c => exact hsub _ h
  | bcast e ex => exact hsub _ h
  | persist en db => exact h.elim

theorem sendsTo_zero_of_typed {tys : List EventType} {ty : EventType}
    {u : UserId} (hty : ty ∉ tys) :
    ∀ t : List TraceItem, (∀ i ∈ t, itemTyped tys i) →
      sendsTo u ty t = 0 := by
  intro t
  induction t with
  | nil => intro _; rfl
  | cons i rest ih =>
    intro h
    have hrest := ih (fun j hj => h j (List.mem_cons_of_mem _ hj))
    have hi := h i (List.mem_cons_self _ _)
    cases i with
    | send rcp e c =>
      have : ¬(e.event_type = ty) := fun he => hty (he ▸ hi)
      simp [sendsTo, List.filter_cons, this]
      simpa [sendsTo] using hrest
    | bcast e ex =>
      simp [sendsTo, List.filter_cons]
      simpa [sendsTo] using hrest
    | persist en db => exact hi.elim

theorem bcastsOf_zero_of_typed {tys : List EventType} {ty : EventType}
    (hty : ty ∉ tys) :
    ∀ t : List TraceItem, (∀ i ∈ t, itemTyped tys i) →
      bcastsOf ty t = 0 := by
  intro t
  induction t with
  | nil => intro _; rfl
  | cons i rest ih =>
    intro h
    have hrest := ih (fun j hj => h j (List.mem_cons_of_mem _ hj))
    have hi := h i (List.mem_cons_self _ _)
    cases i with
    | send rcp e c =>
      simp [bcastsOf, List.filter_cons]
      simpa [bcastsOf] using hrest
    | bcast e ex =>
      have : ¬(e.event_type = ty) := fun he => hty (he ▸ hi)
      simp [bcastsOf, List.filter_cons, this]
      simpa [bcastsOf] using hrest
    | persist en db => exact hi.elim

theorem bcastsOf_mainSends {e : CollaborationEvent} {ex : Option UserId}
    {ty : EventType} : ∀ us, bcastsOf ty (mainSends e ex us) = 0 := by
  intro us
  induction us with
  | nil => rfl
  | cons p rest ih =>
    obtain ⟨k, s⟩ := p
    rw [mainSends_cons]
    by_cases h : excludedBy ex k
    · simp [h, ih]
    · simp [h, bcastsOf, List.filter_cons]
      simpa [bcastsOf] using ih



/-! Broadcast behaviour when every transport is healthy. -/

theorem broadcast_event_connected {n now : Nat} {r : Room}
    {e : CollaborationEvent} {ex : Option UserId}
    (h : ∀ p ∈ r.users, p.2.connected = true) :
    broadcast_event (n + 2) now r e ex =
      .ok r (.bcast e ex :: mainSends e ex r.users) () := by
  have h2 : (sendLoop e ex r.users).2 = [] := by
    rw [sendLoop_snd]
    exact failedIds_nil_of_connected h
  rw [broadcast_event, h2]
  simp only [cleanupLoop]
  rw [sendLoop_fst]
  simp


/-! Classification of cleanup traces: the disconnect-cleanup machinery
only ever emits USER_LEFT and LOCK_RELEASED events, and a broadcast's
own trace only adds its one event. -/

theorem typed_pack : ∀ fuel : Nat,
    (∀ now r e ex r' t v, broadcast_event fuel now r e ex = .ok r' t v →
      ∀ i ∈ t, itemTyped (e.event_type :: cleanupTypes) i) ∧
    (∀ now r ds r' t v, cleanupLoop fuel now r ds = .ok r' t v →
      ∀ i ∈ t, itemTyped cleanupTypes i) ∧
    (∀ now r uid r' t v, remove_user fuel now r uid = .ok r' t v →
      ∀ i ∈ t, itemTyped cleanupTypes i) ∧
    (∀ now r uid r' t v, release_user_locks fuel now r uid = .ok r' t v →
      ∀ i ∈ t, itemTyped cleanupTypes i) ∧
    (∀ now r uid ps r' t v, releaseLocksLoop fuel now r uid ps = .ok r' t v →
      ∀ i ∈ t, itemTyped cleanupTypes i) ∧
    (∀ now r uid fp r' t v, release_lock fuel now r uid fp = .ok r' t v →
      ∀ i ∈ t, itemTyped cleanupTypes i) := by
  intro fuel
  induction fuel with
  | zero =>
    refine ⟨?_, ?_, ?_, ?_, ?_, ?_⟩
    · intro now r e ex r' t v h; simp only [broadcast_event] at h; cases h
    · intro now r ds r' t v h; simp only [cleanupLoop] at h; cases h
    · intro now r uid r' t v h; simp only [remove_user] at h; cases h
    · intro now r uid r' t v h; simp only [release_user_locks] at h; cases h
    · intro now r uid ps r' t v h; simp only [releaseLocksLoop] at h; cases h
    · intro now r uid fp r' t v h; simp only [release_lock] at h; cases h
  | succ n ih =>
    obtain ⟨ihB, ihC, ihR, ihU, ihL, ihK⟩ := ih
    refine ⟨?_, ?_, ?_, ?_, ?_, ?_⟩
    · intro now r e ex r' t v h
      simp only [broadcast_event] at h
      split at h
      next r2 t2 v2 hc =>
        injection h with h1 h2 h3
        subst h2
        intro i hi
        rcases List.mem_cons.1 hi with rfl | hi2
        · exact List.mem_cons_self _ _
        · rw [sendLoop_fst] at hi2
          rcases List.mem_append.1 hi2 with hm | hcl
          · obtain ⟨rcp, c, rfl⟩ := mainSends_mem hm
            exact List.mem_cons_self _ _
          · exact itemTyped_mono (fun ty hty => List.mem_cons_of_mem _ hty)
              (ihC now r _ r2 t2 v2 hc i hcl)
      next r2 t2 hc => cases h
      next hc => cases h
    · intro now r ds r' t v h
      cases ds with
      | nil =>
        simp only [cleanupLoop] at h
        injection h with h1 h2 h3
        subst h2
        intro i hi
        simp at hi
      | cons d ds2 =>
        simp only [cleanupLoop] at h
        split at h
        next r1 t1 v1 hr =>
          split at h
          next r2 t2 v2 hc =>
            injection h with h1 h2 h3
            subst h2
            intro i hi
            rcases List.mem_append.1 hi with hm | hm
            · exact ihR now r d r1 t1 v1 hr i hm
            · exact ihC now r1 ds2 r2 t2 v2 hc i hm
          next r2 t2 hc => cases h
          next hc => cases h
        next r1 t1 hr => cases h
        next hr => cases h
    · intro now r uid r' t v h
      simp only [remove_user] at h
      split at h
      next hu =>
        injection h with h1 h2 h3
        subst h2
        intro i hi
        simp at hi
      next s hu =>
        split at h
        next r1 t1 v1 hrul =>
          split at h
          next h2 => cases h
          next s1 h2 =>
            split at h
            next r3 t2 v2 hb =>
              injection h with hx1 hx2 hx3
              subst hx2
              intro i hi
              rcases List.mem_append.1 hi with hm | hm
              · exact ihU now r uid r1 t1 v1 hrul i hm
              · have hbt := ihB now _ _ (some uid) r3 t2 v2 hb i hm
                refine itemTyped_mono ?_ hbt
                intro ty hty
                rcases List.mem_cons.1 hty with rfl | hty2
                · simp [cleanupTypes]
                · exact hty2
            next r3 t2 hb => cases h
            next hb => cases h
        next r1 t1 hrul => cases h
        next hrul => cases h
    · intro now r uid r' t v h
      simp only [release_user_locks] at h
      split at h
      next hu =>
        injection h with h1 h2 h3
        subst h2
        intro i hi
        simp at hi
      next s hu =>
        exact ihL now r uid s.active_locks r' t v h
    · intro now r uid ps r' t v h
      cases ps with
      | nil =>
        simp only [releaseLocksLoop] at h
        injection h with h1 h2 h3
        subst h2
        intro i hi
        simp at hi
      | cons fp ps2 =>
        simp only [releaseLocksLoop] at h
        split at h
        next r1 t1 v1 hk =>
          split at h
          next r2 t2 v2 hl =>
            injection h with h1 h2 h3
            subst h2
            intro i hi
            rcases List.mem_append.1 hi with hm | hm
            · exact ihK now r uid fp r1 t1 v1 hk i hm
            · exact ihL now r1 uid ps2 r2 t2 v2 hl i hm
          next r2 t2 hl => cases h
          next hl => cases h
        next r1 t1 hk => cases h
        next hk => cases h
    · intro now r uid fp r' t v h
      simp only [release_lock] at h
      split at h
      next holder hl =>
        split at h
        next hif =>
          have hbt := ihB now _ _ (some uid) r' t v h
          intro i hi
          refine itemTyped_mono ?_ (hbt i hi)
          intro ty hty
          rcases List.mem_cons.1 hty with rfl | hty2
          · simp [cleanupTypes]
          · exact hty2
        next hif =>
          injection h with h1 h2 h3
          subst h2
          intro i hi
          simp at hi
      next hl =>
        injection h with h1 h2 h3
        subst h2
        intro i hi
        simp at hi


/-! Shrink: reflexivity, transitivity and simple steps. -/

theorem exists_of_mem_akeys {β : Type} {m : List (String × β)}
    {k : String} (h : k ∈ akeys m) : ∃ v, (k, v) ∈ m := by
  obtain ⟨q, hq, he⟩ := List.mem_map.1 h
  exact ⟨q.2, by rw [← he, Prod.mk.eta]; exact hq⟩

theorem shrink_refl (r : Room) : Shrink r r := by
  refine ⟨rfl, rfl, fun q hq => hq, fun u s' hs => ⟨s', hs, rfl, rfl, rfl, rfl, fun p hp => hp⟩⟩

theorem shrink_trans {r1 r2 r3 : Room} (h1 : Shrink r1 r2)
    (h2 : Shrink r2 r3) : Shrink r1 r3 := by
  obtain ⟨hc1, hh1, hl1, hu1⟩ := h1
  obtain ⟨hc2, hh2, hl2, hu2⟩ := h2
  refine ⟨hc2.trans hc1, hh2.trans hh1, fun q hq => hl1 q (hl2 q hq), ?_⟩
  intro u s3 hs3
  obtain ⟨s2, hs2, e1, e2, e3, e4, hsub2⟩ := hu2 u s3 hs3
  obtain ⟨s1, hs1, f1, f2, f3, f4, hsub1⟩ := hu1 u s2 hs2
  exact ⟨s1, hs1, e1.trans f1, e2.trans f2, e3.trans f3, e4.trans f4,
    fun p hp => hsub1 p (hsub2 p hp)⟩

theorem shrink_users_keys_sub {r r' : Room} (h : Shrink r r')
    {u : UserId} (hm : u ∈ akeys r'.users) : u ∈ akeys r.users := by
  rcases hx : alookup r'.users u with _ | s0
  · exact absurd hm (alookup_eq_none.1 hx)
  · obtain ⟨s, hs, _⟩ := h.2.2.2 u s0 hx
    exact alookup_isSome_iff.1 (by simp [hs])

theorem shrink_not_mem_users {r r' : Room} (h : Shrink r r')
    {u : UserId} (hm : u ∉ akeys r.users) : u ∉ akeys r'.users :=
  fun hx => hm (shrink_users_keys_sub h hx)

theorem shrink_release_step {r : Room} {fp : FieldPath} {uid : UserId} :
    Shrink r { r with content_locks := aerase r.content_locks fp,
                      users := adjust r.users uid (discardLock fp) } := by
  refine ⟨rfl, rfl, fun q hq => (mem_aerase.1 hq).1, ?_⟩
  intro u s' hs'
  rw [show alookup (adjust r.users uid (discardLock fp)) u =
      if u = uid then (alookup r.users uid).map (discardLock fp)
      else alookup r.users u from alookup_adjust u] at hs'
  by_cases hu : u = uid
  · subst hu
    rw [if_pos rfl] at hs'
    rcases hx : alookup r.users u with _ | s0
    · rw [hx] at hs'
      cases hs'
    · rw [hx] at hs'
      injection hs' with hs'
      refine ⟨s0, rfl, ?_, ?_, ?_, ?_, ?_⟩
      · rw [← hs']; rfl
      · rw [← hs']; rfl
      · rw [← hs']; rfl
      · rw [← hs']; rfl
      · intro p hp
        rw [← hs'] at hp
        exact (List.mem_filter.1 hp).1
  · rw [if_neg hu] at hs'
    exact ⟨s', hs', rfl, rfl, rfl, rfl, fun p hp => hp⟩

theorem shrink_erase_user {r : Room} {uid : UserId} {now : Nat} :
    Shrink r { r with users := aerase r.users uid, last_activity := now } := by
  refine ⟨rfl, rfl, fun q hq => hq, ?_⟩
  intro u s' hs'
  have hne : u ≠ uid := by
    intro he
    rw [he] at hs'
    rw [alookup_aerase_self] at hs'
    cases hs'
  rw [alookup_aerase_ne hne] at hs'
  exact ⟨s', hs', rfl, rfl, rfl, rfl, fun p hp => hp⟩


/-! Invariant preservation across the primitive state updates. -/

theorem not_mem_akeys_aerase {β : Type} {m : List (String × β)}
    {k : String} : k ∉ akeys (aerase m k) :=
  alookup_eq_none.1 alookup_aerase_self

theorem inv_release {r : Room} {fp : FieldPath} {uid : UserId}
    (inv : InvRoom r) (hl : alookup r.content_locks fp = some uid) :
    InvRoom { r with content_locks := aerase r.content_locks fp,
                     users := adjust r.users uid (discardLock fp) } := by
  obtain ⟨ndU, ndL, h3, h4⟩ := inv
  refine ⟨?_, ?_, ?_, ?_⟩
  · simpa [akeys_adjust] using ndU
  · exact nodup_akeys_aerase ndL
  · intro p u hpu
    obtain ⟨hpu0, hne⟩ := mem_aerase.1 hpu
    obtain ⟨s, hs, hp⟩ := h3 p u hpu0
    by_cases hu : u = uid
    · subst hu
      rw [show alookup (adjust r.users u (discardLock fp)) u = _ from
        alookup_adjust u, if_pos rfl, hs]
      refine ⟨discardLock fp s, rfl, ?_⟩
      simp only [discardLock, List.mem_filter]
      exact ⟨hp, by simpa using hne⟩
    · rw [show alookup (adjust r.users uid (discardLock fp)) u = _ from
        alookup_adjust u, if_neg hu]
      exact ⟨s, hs, hp⟩
  · intro u s' hus' p hp
    rcases mem_adjust hus' with ⟨hm, hne⟩ | ⟨v, hv, he⟩
    · have hlk := h4 u s' hm p hp
      have hpfp : ¬(p = fp) := by
        intro he
        subst he
        rw [hl] at hlk
        injection hlk with hlk
        exact hne hlk.symm
      rw [alookup_aerase_ne hpfp]
      exact hlk
    · injection he with he1 he2
      subst he1
      have hva := h4 u v hv
      rw [he2] at hp
      have hpm := List.mem_filter.1 hp
      have hpfp : ¬(p = fp) := by simpa using hpm.2
      rw [alookup_aerase_ne hpfp]
      exact hva p hpm.1

theorem inv_erase_user {r : Room} {uid : UserId} {now : Nat}
    (inv : InvRoom r)
    (hempty : ∀ s', alookup r.users uid = some s' → s'.active_locks = []) :
    InvRoom { r with users := aerase r.users uid, last_activity := now } := by
  obtain ⟨ndU, ndL, h3, h4⟩ := inv
  refine ⟨nodup_akeys_aerase ndU, ndL, ?_, ?_⟩
  · intro p u hpu
    obtain ⟨s, hs, hp⟩ := h3 p u hpu
    have hne : u ≠ uid := by
      intro he
      subst he
      rw [hempty s hs] at hp
      simp at hp
    rw [alookup_aerase_ne hne]
    exact ⟨s, hs, hp⟩
  · intro u s' hus' p hp
    exact h4 u s' (mem_aerase.1 hus').1 p hp


/-! The central preservation pack: every cleanup-capable operation only
shrinks the room, preserves the invariant, and removes what it is asked
to remove. -/

theorem shrink_inv_pack : ∀ fuel : Nat,
    (∀ now r e ex r' t v, broadcast_event fuel now r e ex = .ok r' t v →
      Shrink r r' ∧ (InvRoom r → InvRoom r') ∧
      (∀ d ∈ failedIds ex r.users, d ∉ akeys r'.users)) ∧
    (∀ now r ds r' t v, cleanupLoop fuel now r ds = .ok r' t v →
      Shrink r r' ∧ (InvRoom r → InvRoom r') ∧
      (∀ d ∈ ds, d ∉ akeys r'.users)) ∧
    (∀ now r uid r' t v, remove_user fuel now r uid = .ok r' t v →
      Shrink r r' ∧ (InvRoom r → InvRoom r') ∧ uid ∉ akeys r'.users) ∧
    (∀ now r uid r' t v, release_user_locks fuel now r uid = .ok r' t v →
      Shrink r r' ∧ (InvRoom r → InvRoom r') ∧
      (InvRoom r → ∀ s', alookup r'.users uid = some s' →
        s'.active_locks = [])) ∧
    (∀ now r uid ps r' t v, releaseLocksLoop fuel now r uid ps = .ok r' t v →
      Shrink r r' ∧ (InvRoom r → InvRoom r') ∧
      (InvRoom r → ∀ s', alookup r'.users uid = some s' →
        ∀ p ∈ ps, p ∉ s'.active_locks)) ∧
    (∀ now r uid fp r' t v, release_lock fuel now r uid fp = .ok r' t v →
      Shrink r r' ∧ (InvRoom r → InvRoom r') ∧
      (InvRoom r → ∀ s', alookup r'.users uid = some s' →
        fp ∉ s'.active_locks)) := by
  intro fuel
  induction fuel with
  | zero =>
    refine ⟨?_, ?_, ?_, ?_, ?_, ?_⟩
    · intro now r e ex r' t v h; simp only [broadcast_event] at h; cases h
    · intro now r ds r' t v h; simp only [cleanupLoop] at h; cases h
    · intro now r uid r' t v h; simp only [remove_user] at h; cases h
    · intro now r uid r' t v h; simp only [release_user_locks] at h; cases h
    · intro now r uid ps r' t v h; simp only [releaseLocksLoop] at h; cases h
    · intro now r uid fp r' t v h; simp only [release_lock] at h; cases h
  | succ n ih =>
    obtain ⟨ihB, ihC, ihR, ihU, ihL, ihK⟩ := ih
    refine ⟨?_, ?_, ?_, ?_, ?_, ?_⟩
    · intro now r e ex r' t v h
      simp only [broadcast_event] at h
      split at h
      next r2 t2 v2 hc =>
        injection h with h1 h2 h3
        subst h1
        obtain ⟨hS, hI, hD⟩ := ihC now r _ r2 t2 v2 hc
        rw [sendLoop_snd] at hD
        exact ⟨hS, hI, hD⟩
      next r2 t2 hc => cases h
      next hc => cases h
    · intro now r ds r' t v h
      cases ds with
      | nil =>
        simp only [cleanupLoop] at h
        injection h with h1 h2 h3
        subst h1
        refine ⟨shrink_refl _, fun hv => hv, ?_⟩
        intro d hd
        simp at hd
      | cons d ds2 =>
        simp only [cleanupLoop] at h
        split at h
        next r1 t1 v1 hr =>
          split at h
          next r2 t2 v2 hc =>
            injection h with h1 h2 h3
            subst h1
            obtain ⟨S1, I1, hd1⟩ := ihR now r d r1 t1 v1 hr
            obtain ⟨S2, I2, hds⟩ := ihC now r1 ds2 r2 t2 v2 hc
            refine ⟨shrink_trans S1 S2, fun hv => I2 (I1 hv), ?_⟩
            intro d2 hd2
            rcases List.mem_cons.1 hd2 with rfl | hd3
            · exact shrink_not_mem_users S2 hd1
            · exact hds d2 hd3
          next r2 t2 hc => cases h
          next hc => cases h
        next r1 t1 hr => cases h
        next hr => cases h
    · intro now r uid r' t v h
      simp only [remove_user] at h
      split at h
      next hu =>
        injection h with h1 h2 h3
        subst h1
        exact ⟨shrink_refl _, fun hv => hv, alookup_eq_none.1 hu⟩
      next s hu =>
        split at h
        next r1 t1 v1 hrul =>
          split at h
          next h2 => cases h
          next s1 h2 =>
            split at h
            next r3 t2 v2 hb =>
              injection h with hx1 hx2 hx3
              subst hx1
              obtain ⟨S1, I1, hEmpty⟩ := ihU now r uid r1 t1 v1 hrul
              obtain ⟨S3, I3, _⟩ := ihB now _ _ (some uid) r3 t2 v2 hb
              have hnot2 : uid ∉ akeys (aerase r1.users uid) :=
                not_mem_akeys_aerase
              refine ⟨shrink_trans S1 (shrink_trans shrink_erase_user S3),
                ?_, ?_⟩
              · intro hv
                exact I3 (inv_erase_user (I1 hv) (hEmpty hv))
              · exact shrink_not_mem_users S3 hnot2
            next r3 t2 hb => cases h
            next hb => cases h
        next r1 t1 hrul => cases h
        next hrul => cases h
    · intro now r uid r' t v h
      simp only [release_user_locks] at h
      split at h
      next hu =>
        injection h with h1 h2 h3
        subst h1
        refine ⟨shrink_refl _, fun hv => hv, ?_⟩
        intro _ s' hs'
        rw [hu] at hs'
        cases hs'
      next s hu =>
        obtain ⟨S, I, hL⟩ := ihL now r uid s.active_locks r' t v h
        refine ⟨S, I, ?_⟩
        intro hv s' hs'
        obtain ⟨s0, hs0, _, _, _, _, hsub⟩ := S.2.2.2 uid s' hs'
        rw [hu] at hs0
        injection hs0 with hs0
        subst hs0
        rw [List.eq_nil_iff_forall_not_mem]
        intro q hq
        exact hL hv s' hs' q (hsub q hq) hq
    · intro now r uid ps r' t v h
      cases ps with
      | nil =>
        simp only [releaseLocksLoop] at h
        injection h with h1 h2 h3
        subst h1
        refine ⟨shrink_refl _, fun hv => hv, ?_⟩
        intro _ s' _ p hp
        simp at hp
      | cons fp ps2 =>
        simp only [releaseLocksLoop] at h
        split at h
        next r1 t1 v1 hk =>
          split at h
          next r2 t2 v2 hl =>
            injection h with h1 h2 h3
            subst h1
            obtain ⟨S1, I1, hK⟩ := ihK now r uid fp r1 t1 v1 hk
            obtain ⟨S2, I2, hL⟩ := ihL now r1 uid ps2 r2 t2 v2 hl
            refine ⟨shrink_trans S1 S2, fun hv => I2 (I1 hv), ?_⟩
            intro hv s' hs' p hp
            rcases List.mem_cons.1 hp with rfl | hp2
            · obtain ⟨s1, hs1, _, _, _, _, hsub⟩ := S2.2.2.2 uid s' hs'
              intro hmem
              exact hK hv s1 hs1 (hsub p hmem)
            · exact hL (I1 hv) s' hs' p hp2
          next r2 t2 hl => cases h
          next hl => cases h
        next r1 t1 hk => cases h
        next hk => cases h
    · intro now r uid fp r' t v h
      simp only [release_lock] at h
      split at h
      next holder hl =>
        split at h
        next hif =>
          obtain ⟨S3, I3, _⟩ := ihB now _ _ (some uid) r' t v h
          have hluid : alookup r.content_locks fp = some uid := by
            rw [hl, hif]
          refine ⟨shrink_trans shrink_release_step S3, ?_, ?_⟩
          · intro hv
            exact I3 (inv_release hv hluid)
          · intro hv s' hs'
            obtain ⟨s2, hs2, _, _, _, _, hsub⟩ := S3.2.2.2 uid s' hs'
            rw [show alookup (adjust r.users uid (discardLock fp)) uid = _ from
              alookup_adjust uid, if_pos rfl] at hs2
            rcases hx : alookup r.users uid with _ | s0
            · rw [hx] at hs2
              cases hs2
            · rw [hx] at hs2
              injection hs2 with hs2
              intro hmem
              have := hsub fp hmem
              rw [← hs2] at this
              have hf := List.mem_filter.1 this
              simp at hf
        next hif =>
          injection h with h1 h2 h3
          subst h1
          refine ⟨shrink_refl _, fun hv => hv, ?_⟩
          intro hv s' hs' hmem
          have h4 := hv.2.2.2 uid s' (alookup_mem hs') fp hmem
          rw [hl] at h4
          injection h4 with h4
          exact hif h4
      next hl =>
        injection h with h1 h2 h3
        subst h1
        refine ⟨shrink_refl _, fun hv => hv, ?_⟩
        intro hv s' hs' hmem
        have h4 := hv.2.2.2 uid s' (alookup_mem hs') fp hmem
        rw [hl] at h4
        cases h4


/-! The shape of a normally-completing broadcast's trace. -/

theorem broadcast_ok_shape {fuel now : Nat} {r r' : Room}
    {e : CollaborationEvent} {ex : Option UserId} {t : List TraceItem}
    {v : Unit} (h : broadcast_event fuel now r e ex = .ok r' t v) :
    ∃ ct, t = .bcast e ex :: mainSends e ex r.users ++ ct ∧
      cleanupLoop (fuel - 1) now r (failedIds ex r.users) = .ok r' ct v := by
  cases fuel with
  | zero => simp only [broadcast_event] at h; cases h
  | succ n =>
    simp only [broadcast_event] at h
    split at h
    next r2 t2 v2 hc =>
      injection h with h1 h2 h3
      subst h1
      subst h3
      refine ⟨t2, ?_, ?_⟩
      · rw [← h2, sendLoop_fst]
      · rw [show n + 1 - 1 = n from rfl, ← sendLoop_snd]
        exact hc
    next r2 t2 hc => cases h
    next hc => cases h

theorem bcastsOf_cons_bcast {ty : EventType} {e : CollaborationEvent}
    {ex : Option UserId} {t : List TraceItem} :
    bcastsOf ty (.bcast e ex :: t) =
      (if e.event_type = ty then 1 else 0) + bcastsOf ty t := by
  by_cases h : e.event_type = ty <;>
    simp [bcastsOf, List.filter_cons, h, Nat.add_comm]

theorem sendsTo_cons_bcast {u : UserId} {ty : EventType}
    {e : CollaborationEvent} {ex : Option UserId} {t : List TraceItem} :
    sendsTo u ty (.bcast e ex :: t) = sendsTo u ty t := by
  simp [sendsTo, List.filter_cons]

theorem itemTyped_not_persist {tys : List EventType} {i : TraceItem}
    (h : itemTyped tys i) : isPersist i = false := by
  cases i with
  | send rcp e c => rfl
  | bcast e ex => rfl
  | persist en db => exact h.elim

theorem persist_change_eq {r : Room} {en : ChangeEntry} {db : DbOutcome} :
    persist_change r en db = (r, [.persist en db]) := by
  cases db <;> rfl


/-! Claim C1: acquire_lock try-lock semantics. -/

/-- C1: `acquire_lock(A, P)` succeeds, starting exactly one
LOCK_ACQUIRED broadcast attempted exactly once at every participant
other than `A`, precisely when `P` has no current holder; with any
holder (including `A` itself) it returns false, leaves the room
untouched and sends nothing; and the Scenario A exchange (A locks,
B fails silently, A releases, B succeeds) runs as specified. -/
theorem claim_C1_acquire_try_lock :
    ∀ fuel now r (A : UserId) (P : FieldPath),
      (akeys r.users).Nodup →
      (∀ h0, alookup r.content_locks P = some h0 →
        acquire_lock fuel now r A P = .ok r [] false) ∧
      (alookup r.content_locks P = none →
        ∀ r' t b, acquire_lock fuel now r A P = .ok r' t b →
          b = true ∧ bcastsOf .lock_acquired t = 1 ∧
          ∀ u, u ∈ akeys r.users → u ≠ A →
            sendsTo u .lock_acquired t = 1) ∧
      scenarioA = true := by
  intro fuel now r A P nd
  refine ⟨?_, ?_, by decide⟩
  · intro h0 hl
    simp only [acquire_lock, hl]
  · intro hnone r' t b h
    simp only [acquire_lock, hnone] at h
    split at h
    next r2 t2 v2 hb =>
      injection h with h1 h2 h3
      subst h1
      subst h2
      subst h3
      obtain ⟨ct, hts, hcl⟩ := broadcast_ok_shape hb
      subst hts
      have hct := (typed_pack (fuel - 1)).2.1 _ _ _ _ _ _ hcl
      have hla : EventType.lock_acquired ∉ cleanupTypes := by
        simp [cleanupTypes]
      refine ⟨rfl, ?_, ?_⟩
      · rw [bcastsOf_append, bcastsOf_cons_bcast, bcastsOf_mainSends,
            bcastsOf_zero_of_typed hla ct hct]
        simp
      · intro u hu hne
        rw [sendsTo_append, sendsTo_cons_bcast,
            sendsTo_zero_of_typed hla ct hct, Nat.add_zero]
        exact sendsTo_mainSends_one _ (by rw [akeys_adjust]; exact nd)
          (by rw [akeys_adjust]; exact hu) (not_excludedBy_of_ne hne) rfl
    next r2 t2 hb => cases h
    next hb => cases h

/-- Witness for C1 at a concrete room: an acquire on the held path `f`
of `c3room` fails and changes nothing. -/
theorem claim_C1_acquire_try_lock_witness :
    acquire_lock 6 0 c3room "x" "f" = .ok c3room [] false :=
  ((claim_C1_acquire_try_lock 6 0 c3room "x" "f" (by decide)).1 "b"
    (by decide))

/-! Claim C3 (corrected): conflicting change is rejected without
mutation; the CONFLICT_DETECTED unicast only reaches a requester that
still has a session. -/

/-- C3 (amended): when `P` is held by someone other than `A`,
`handle_content_change` returns the room unchanged with only the
conflict unicast as its trace; that unicast is exactly one
CONFLICT_DETECTED naming the current holder when `A` has a session, and
nothing at all when `A` has none. -/
theorem claim_C3_conflict_reject :
    ∀ fuel now r (A : UserId) (P : FieldPath) oldv newv opk db holder,
      alookup r.content_locks P = some holder → holder ≠ A →
      handle_content_change fuel now r A P oldv newv opk db =
        .ok r (send_conflict now r A P) () ∧
      (∀ s, alookup r.users A = some s →
        send_conflict now r A P =
          [.send A ⟨.conflict_detected, r.campaign_id, A,
             .conflictDetected P (some holder) (usernameOr r holder)
               ("Field is currently being edited by " ++ usernameOr r holder),
             now⟩ s.connected]) ∧
      (alookup r.users A = none → send_conflict now r A P = []) := by
  intro fuel now r A P oldv newv opk db holder hl hne
  have hc : conflictsWith r A P = true := by
    simp [conflictsWith, hl]
    intro he
    exact absurd he hne
  refine ⟨?_, ?_, ?_⟩
  · simp only [handle_content_change, hc, if_true]
  · intro s hs
    simp [send_conflict, hs, hl]
  · intro hs
    simp [send_conflict, hs]

/-- Counterexample to C3 as frozen: a requester without a session
receives no CONFLICT_DETECTED at all — `handle_content_change` by the
absent actor `a` on the path `f` held by `b` returns an empty trace. -/
theorem claim_C3_counterexample :
    handle_content_change 5 0 c3room "a" "f" "x" "y" "update" .dbOk =
      .ok c3room [] () := by decide

/-- Witness for C3 at a concrete room with a present requester. -/
theorem claim_C3_conflict_reject_witness :
    handle_content_change 5 0 c3room2 "a" "f" "x" "y" "update" .dbOk =
      .ok c3room2 (send_conflict 0 c3room2 "a" "f") () :=
  (claim_C3_conflict_reject 5 0 c3room2 "a" "f" "x" "y" "update" .dbOk "b"
    (by decide) (by decide)).1

/-! Claim C4: release_lock is holder-only. -/

/-- C4: `release_lock(A, P)` removes the lock and starts a
LOCK_RELEASED broadcast exactly when the table maps `P` to `A`; a
mismatched or absent request returns the room unchanged with an empty
trace. -/
theorem claim_C4_release_only_holder :
    ∀ fuel now r (A : UserId) (P : FieldPath),
      (¬ alookup r.content_locks P = some A → 0 < fuel →
        release_lock fuel now r A P = .ok r [] ()) ∧
      (alookup r.content_locks P = some A →
        ∀ r' t v, release_lock fuel now r A P = .ok r' t v →
          alookup r'.content_locks P = none ∧
          ∃ e rest, t = .bcast e (some A) :: rest ∧
            e.event_type = .lock_released ∧ e.user_id = A ∧
            ∃ uname, e.data = .lockReleased P uname) := by
  intro fuel now r A P
  constructor
  · intro hne hf
    cases fuel with
    | zero => exact absurd hf (Nat.lt_irrefl 0)
    | succ n =>
      simp only [release_lock]
      rcases hl : alookup r.content_locks P with _ | holder
      · rfl
      · have hh : ¬(holder = A) := fun he => hne (by rw [hl, he])
        simp [hh]
  · intro hl r' t v h
    cases fuel with
    | zero => simp only [release_lock] at h; cases h
    | succ n =>
      simp only [release_lock] at h
      split at h
      next holder hl2 =>
        have hAh : holder = A := by
          rw [hl] at hl2
          injection hl2 with hx
          exact hx.symm
        split at h
        next hif =>
          obtain ⟨S3, _, _⟩ := (shrink_inv_pack n).1 _ _ _ _ _ _ _ h
          constructor
          · rcases hx : alookup r'.content_locks P with _ | x
            · rfl
            · have hm2 := S3.2.2.1 _ (alookup_mem hx)
              have hno := (mem_aerase.1 hm2).2
              simp at hno
          · obtain ⟨ct, hts, _⟩ := broadcast_ok_shape h
            subst hts
            exact ⟨_, _, rfl, rfl, hAh ▸ rfl, _, rfl⟩
        next hif => exact absurd hAh hif
      next hl2 =>
        rw [hl] at hl2
        cases hl2

/-- Witness for C4: a non-holder release on `c3room` is a no-op. -/
theorem claim_C4_release_only_holder_witness :
    release_lock 1 0 c3room "a" "f" = .ok c3room [] () :=
  (claim_C4_release_only_holder 1 0 c3room "a" "f").1 (by decide) (by decide)

/-! Claim C8: persistence is attempted last and its failure is
invisible. -/

/-- C8: for an accepted change the entry is appended and the
CONTENT_CHANGED broadcast fully precedes the single persistence
attempt, and the store's outcome changes nothing observable: the result
is identical for every database outcome apart from the recorded outcome
itself. -/
theorem claim_C8_persist_isolation :
    ∀ fuel now r (uid : UserId) (fp : FieldPath) oldv newv opk,
      conflictsWith r uid fp = false →
      (∀ db r' t v,
        handle_content_change fuel now r uid fp oldv newv opk db =
          .ok r' t v →
        r'.change_history =
          r.change_history ++ [⟨now, uid, opk, fp, oldv, newv⟩] ∧
        ∃ t0, t = t0 ++ [.persist ⟨now, uid, opk, fp, oldv, newv⟩ db] ∧
          ∀ i ∈ t0, isPersist i = false) ∧
      (∀ db1 db2,
        scrubRes (handle_content_change fuel now r uid fp oldv newv opk db1) =
          scrubRes (handle_content_change fuel now r uid fp oldv newv opk db2)) := by
  intro fuel now r uid fp oldv newv opk hnc
  constructor
  · intro db r' t v h
    simp only [handle_content_change, hnc, Bool.false_eq_true, if_false] at h
    split at h
    next r2 t2 v2 hb =>
      rw [persist_change_eq] at h
      dsimp only at h
      injection h with h1 h2 h3
      subst h1
      subst h2
      obtain ⟨S, _, _⟩ := (shrink_inv_pack fuel).1 _ _ _ _ _ _ _ hb
      constructor
      · rw [S.2.1]
      · refine ⟨t2, rfl, ?_⟩
        intro i hi
        exact itemTyped_not_persist ((typed_pack fuel).1 _ _ _ _ _ _ _ hb i hi)
    next r2 t2 hb => cases h
    next hb => cases h
  · intro db1 db2
    simp only [handle_content_change, hnc, Bool.false_eq_true, if_false]
    split
    next r2 t2 v2 hb =>
      rw [persist_change_eq, persist_change_eq]
      simp [scrubRes, scrubDb]
    next r2 t2 hb => rfl
    next hb => rfl

/-- Witness for C8 at a concrete accepted change on `c8room`. -/
theorem claim_C8_persist_isolation_witness :
    scrubRes (handle_content_change 6 0 c8room "a" "f" "x" "y" "update"
        .saveRaises) =
      scrubRes (handle_content_change 6 0 c8room "a" "f" "x" "y" "update"
        .dbOk) :=
  (claim_C8_persist_isolation 6 0 c8room "a" "f" "x" "y" "update"
    (by decide)).2 .saveRaises .dbOk


/-! Claim C7 (corrected): room reclamation. -/

theorem alookup_filter {β : Type} {m : List (String × β)} {k : String}
    {v : β} {p : String × β → Bool} (nd : (akeys m).Nodup) :
    alookup (m.filter p) k = some v ↔
      alookup m k = some v ∧ p (k, v) = true := by
  constructor
  · intro h
    have hm := List.mem_filter.1 (alookup_mem h)
    exact ⟨mem_alookup nd hm.1, hm.2⟩
  · intro ⟨h1, h2⟩
    have hnd : (akeys (m.filter p)).Nodup :=
      List.Nodup.sublist (List.Sublist.map _ (List.filter_sublist m)) nd
    exact mem_alookup hnd (List.mem_filter.2 ⟨alookup_mem h1, h2⟩)

/-- Counterexample to C7 as frozen: with one room holding one
participant `a`, `leave_campaign` deletes the room from the directory
at the very instant its last participant leaves — no sweep involved. -/
theorem claim_C7_counterexample :
    (alookup c7m.rooms "c").isSome = true ∧
    leave_campaign 3 5 c7m "c" "a" =
      .ok ⟨[]⟩ [.bcast ⟨.user_left, "c", "a", .userLeft "Al" 5 [], 5⟩
        (some "a")] () := by
  decide

/-- C7 (amended): a room leaves the directory in two ways — the sweep
deletes exactly the rooms whose last_activity lies more than the 3600 s
grace window in the past, whether or not sessions remain, and
`leave_campaign` deletes its room immediately when the session map is
empty after the removal. -/
theorem claim_C7_room_reclamation :
    (∀ now m cid r, (akeys m.rooms).Nodup →
      (alookup (cleanup_inactive_rooms now m).rooms cid = some r ↔
        alookup m.rooms cid = some r ∧
          ¬(3600 < (now : Int) - (r.last_activity : Int)))) ∧
    (∀ fuel now m (cid : String) (uid : UserId) m' t v r,
      leave_campaign fuel now m cid uid = .ok m' t v →
      alookup m.rooms cid = some r →
      ∃ r1 v1, remove_user fuel now r uid = .ok r1 t v1 ∧
        alookup m'.rooms cid =
          (if r1.users.isEmpty then none else some r1)) := by
  constructor
  · intro now m cid r nd
    rw [show (cleanup_inactive_rooms now m).rooms =
      m.rooms.filter (fun p =>
        !(decide (3600 < (now : Int) - (p.2.last_activity : Int)))) from rfl]
    rw [alookup_filter nd]
    simp
  · intro fuel now m cid uid m' t v r h hr
    simp only [leave_campaign, hr] at h
    split at h
    next r1 t1 v1 hrem =>
      split at h
      next hempty =>
        injection h with h1 h2 h3
        subst h1
        subst h2
        refine ⟨r1, v1, hrem, ?_⟩
        rw [if_pos hempty]
        exact alookup_aerase_self
      next hempty =>
        injection h with h1 h2 h3
        subst h1
        subst h2
        refine ⟨r1, v1, hrem, ?_⟩
        rw [if_neg hempty]
        exact alookup_ainsert_self
    next r1 t1 hrem => cases h
    next hrem => cases h

/-- Witness for C7: the sweep characterization applied to the concrete
directory `c7m` at tick 4000: the room (idle since 0, with a live
session) is reclaimed. -/
theorem claim_C7_room_reclamation_witness :
    alookup (cleanup_inactive_rooms 4000 c7m).rooms "c" = some c7room ↔
      alookup c7m.rooms "c" = some c7room ∧
        ¬(3600 < (4000 : Int) - ((c7room.last_activity : Nat) : Int)) :=
  claim_C7_room_reclamation.1 4000 c7m "c" c7room (by decide)

/-! Claim C6 (corrected): the join broadcast and snapshot. -/

/-- Counterexample to C6 as frozen: joining a room whose only
participant `b` has a dead transport makes the USER_JOINED broadcast
remove `b`, so the SYNC_RESPONSE the joiner receives lists no
participants although `b` was present before the join. -/
theorem claim_C6_counterexample :
    akeys c6room.users = ["b"] ∧
    add_user 20 5 c6room c6sess =
      .ok ⟨"c", [("j", c6sess)], [], [], 0, 5⟩
        [.bcast ⟨.user_joined, "c", "j", .userJoined "Joy" 5 ["b", "j"], 5⟩
           (some "j"),
         .send "b" ⟨.user_joined, "c", "j", .userJoined "Joy" 5 ["b", "j"], 5⟩
           false,
         .bcast ⟨.user_left, "c", "b", .userLeft "Bob" 5 ["j"], 5⟩ (some "b"),
         .send "j" ⟨.user_left, "c", "b", .userLeft "Bob" 5 ["j"], 5⟩ true,
         .send "j" ⟨.sync_response, "c", "system", .syncResponse [] [] [], 5⟩
           true] () := by
  decide

/-- C6 (amended): when every present transport is live and the joiner
is fresh with a non-empty id and a live transport, `add_user` broadcasts
USER_JOINED exactly once to every prior participant and never to the
joiner, and then unicasts to the joiner alone a snapshot listing
exactly the pre-join participants, the lock table with current holder
names, and the last 10 change entries. -/
theorem claim_C6_join_broadcast_and_snapshot :
    ∀ fuel now r (s : UserSession),
      (akeys r.users).Nodup → s.user_id ≠ "" → s.connected = true →
      alookup r.users s.user_id = none →
      (∀ p ∈ r.users, p.2.connected = true) →
      add_user (fuel + 2) now r s =
        .ok (joinRoom r s now)
          ((.bcast (joinEvent r s now) (some s.user_id) ::
              mainSends (joinEvent r s now) (some s.user_id)
                (joinRoom r s now).users) ++
            [.send s.user_id (syncEvent now (joinRoom r s now) s.user_id)
              true]) () ∧
      (∀ u ∈ akeys r.users,
        sendsTo u .user_joined
          (mainSends (joinEvent r s now) (some s.user_id)
            (joinRoom r s now).users) = 1) ∧
      countRecip s.user_id
        (mainSends (joinEvent r s now) (some s.user_id)
          (joinRoom r s now).users) = 0 ∧
      (syncEvent now (joinRoom r s now) s.user_id).data =
        .syncResponse
          (r.users.map (fun p =>
            ⟨p.1, p.2.username, p.2.cursor_position, p.2.current_selection,
             p.2.joined_at⟩))
          (r.content_locks.map
            (fun p => ⟨p.1, p.2, usernameOr (joinRoom r s now) p.2⟩))
          (r.change_history.drop (r.change_history.length - 10)) := by
  intro fuel now r s nd hid hcon habs hlive
  have husers : (joinRoom r s now).users = r.users ++ [(s.user_id, s)] := by
    rw [show (joinRoom r s now).users = ainsert r.users s.user_id s from rfl,
        ainsert_of_not_mem (alookup_eq_none.1 habs)]
  have hall : ∀ p ∈ (joinRoom r s now).users, p.2.connected = true := by
    intro p hp
    rw [husers] at hp
    rcases List.mem_append.1 hp with hp1 | hp1
    · exact hlive p hp1
    · rw [List.mem_singleton] at hp1
      rw [hp1]
      exact hcon
  have hkeys : akeys (joinRoom r s now).users = akeys r.users ++ [s.user_id] := by
    rw [husers, akeys_append]
    rfl
  have hnd2 : (akeys (joinRoom r s now).users).Nodup := by
    rw [hkeys, List.nodup_append]
    refine ⟨nd, List.nodup_singleton _, ?_⟩
    intro x hx hs
    rw [List.mem_singleton] at hs
    exact (alookup_eq_none.1 habs) (hs ▸ hx)
  refine ⟨?_, ?_, ?_, ?_⟩
  · have hb : broadcast_event (fuel + 2) now (joinRoom r s now)
        (joinEvent r s now) (some s.user_id) =
        .ok (joinRoom r s now)
          (.bcast (joinEvent r s now) (some s.user_id) ::
            mainSends (joinEvent r s now) (some s.user_id)
              (joinRoom r s now).users) () :=
      broadcast_event_connected hall
    show (match broadcast_event (fuel + 2) now (joinRoom r s now)
        (joinEvent r s now) (some s.user_id) with
      | RRes.ok r2 t _ => RRes.ok r2 (t ++ send_current_state now r2 s) ()
      | RRes.exn r2 t => RRes.exn r2 t
      | RRes.fuel => RRes.fuel) = _
    rw [hb]
    simp only [send_current_state, hcon]
  · intro u hu
    have hne : u ≠ s.user_id := by
      intro he
      exact (alookup_eq_none.1 habs) (he ▸ hu)
    exact sendsTo_mainSends_one _ hnd2
      (by rw [hkeys]; exact List.mem_append.2 (Or.inl hu))
      (not_excludedBy_of_ne hne) rfl
  · apply countRecip_mainSends_zero_of_excluded
    simp [excludedBy, hid]
  · have hfil : (joinRoom r s now).users.filter
        (fun p => !decide (p.1 = s.user_id)) = r.users := by
      rw [husers, List.filter_append]
      have h1 : r.users.filter (fun p => !decide (p.1 = s.user_id)) =
          r.users := by
        rw [List.filter_eq_self]
        intro p hp
        simp only [Bool.not_eq_true']
        rw [decide_eq_false_iff_not]
        intro he
        exact (alookup_eq_none.1 habs) (he ▸ mem_akeys_of_mem hp)
      rw [h1]
      simp
    simp only [syncEvent]
    rw [hfil]
    rfl

/-- Witness for C6: a fresh connected joiner on the two-member
all-connected room `c8room`. -/
theorem claim_C6_join_broadcast_and_snapshot_witness :
    add_user 2 7 c8room c6sess =
      .ok (joinRoom c8room c6sess 7)
        ((.bcast (joinEvent c8room c6sess 7) (some "j") ::
            mainSends (joinEvent c8room c6sess 7) (some "j")
              (joinRoom c8room c6sess 7).users) ++
          [.send "j" (syncEvent 7 (joinRoom c8room c6sess 7) "j") true]) () :=
  (claim_C6_join_broadcast_and_snapshot 0 7 c8room c6sess (by decide)
    (by decide) (by decide) (by decide) (by decide)).1


/-! Every session that disappears during cleanup does so through
`remove_user`, which starts a USER_LEFT broadcast for it. -/

theorem eq_of_mem_not_mem_aerase {β : Type} {m : List (String × β)}
    {k x : String} (hx : x ∈ akeys m) (hx2 : x ∉ akeys (aerase m k)) :
    x = k := by
  by_contra hne
  obtain ⟨v, hv⟩ := exists_of_mem_akeys hx
  exact hx2 (mem_akeys_of_mem (mem_aerase.2 ⟨hv, hne⟩))

theorem left_marker_pack : ∀ fuel : Nat,
    (∀ now r e ex r' t v, broadcast_event fuel now r e ex = .ok r' t v →
      ∀ x, x ∈ akeys r.users → x ∉ akeys r'.users →
        ∃ eL, TraceItem.bcast eL (some x) ∈ t ∧
          eL.event_type = .user_left ∧ eL.user_id = x) ∧
    (∀ now r ds r' t v, cleanupLoop fuel now r ds = .ok r' t v →
      ∀ x, x ∈ akeys r.users → x ∉ akeys r'.users →
        ∃ eL, TraceItem.bcast eL (some x) ∈ t ∧
          eL.event_type = .user_left ∧ eL.user_id = x) ∧
    (∀ now r uid r' t v, remove_user fuel now r uid = .ok r' t v →
      ∀ x, x ∈ akeys r.users → x ∉ akeys r'.users →
        ∃ eL, TraceItem.bcast eL (some x) ∈ t ∧
          eL.event_type = .user_left ∧ eL.user_id = x) ∧
    (∀ now r uid r' t v, release_user_locks fuel now r uid = .ok r' t v →
      ∀ x, x ∈ akeys r.users → x ∉ akeys r'.users →
        ∃ eL, TraceItem.bcast eL (some x) ∈ t ∧
          eL.event_type = .user_left ∧ eL.user_id = x) ∧
    (∀ now r uid ps r' t v, releaseLocksLoop fuel now r uid ps = .ok r' t v →
      ∀ x, x ∈ akeys r.users → x ∉ akeys r'.users →
        ∃ eL, TraceItem.bcast eL (some x) ∈ t ∧
          eL.event_type = .user_left ∧ eL.user_id = x) ∧
    (∀ now r uid fp r' t v, release_lock fuel now r uid fp = .ok r' t v →
      ∀ x, x ∈ akeys r.users → x ∉ akeys r'.users →
        ∃ eL, TraceItem.bcast eL (some x) ∈ t ∧
          eL.event_type = .user_left ∧ eL.user_id = x) := by
  intro fuel
  induction fuel with
  | zero =>
    refine ⟨?_, ?_, ?_, ?_, ?_, ?_⟩
    · intro now r e ex r' t v h; simp only [broadcast_event] at h; cases h
    · intro now r ds r' t v h; simp only [cleanupLoop] at h; cases h
    · intro now r uid r' t v h; simp only [remove_user] at h; cases h
    · intro now r uid r' t v h; simp only [release_user_locks] at h; cases h
    · intro now r uid ps r' t v h; simp only [releaseLocksLoop] at h; cases h
    · intro now r uid fp r' t v h; simp only [release_lock] at h; cases h
  | succ n ih =>
    obtain ⟨ihB, ihC, ihR, ihU, ihL, ihK⟩ := ih
    refine ⟨?_, ?_, ?_, ?_, ?_, ?_⟩
    · intro now r e ex r' t v h
      simp only [broadcast_event] at h
      split at h
      next r2 t2 v2 hc =>
        injection h with h1 h2 h3
        subst h1
        subst h2
        intro x hx hx2
        obtain ⟨eL, hm, he1, he2⟩ := ihC now r _ r2 t2 v2 hc x hx hx2
        exact ⟨eL, List.mem_cons_of_mem _ (List.mem_append.2 (Or.inr hm)),
          he1, he2⟩
      next r2 t2 hc => cases h
      next hc => cases h
    · intro now r ds r' t v h
      cases ds with
      | nil =>
        simp only [cleanupLoop] at h
        injection h with h1 h2 h3
        subst h1
        intro x hx hx2
        exact absurd hx hx2
      | cons d ds2 =>
        simp only [cleanupLoop] at h
        split at h
        next r1 t1 v1 hr =>
          split at h
          next r2 t2 v2 hc =>
            injection h with h1 h2 h3
            subst h1
            subst h2
            intro x hx hx2
            by_cases hx1 : x ∈ akeys r1.users
            · obtain ⟨eL, hm, he1, he2⟩ := ihC now r1 ds2 r2 t2 v2 hc x hx1 hx2
              exact ⟨eL, List.mem_append.2 (Or.inr hm), he1, he2⟩
            · obtain ⟨eL, hm, he1, he2⟩ := ihR now r d r1 t1 v1 hr x hx hx1
              exact ⟨eL, List.mem_append.2 (Or.inl hm), he1, he2⟩
          next r2 t2 hc => cases h
          next hc => cases h
        next r1 t1 hr => cases h
        next hr => cases h
    · intro now r uid r' t v h
      simp only [remove_user] at h
      split at h
      next hu =>
        injection h with h1 h2 h3
        subst h1
        intro x hx hx2
        exact absurd hx hx2
      next s hu =>
        split at h
        next r1 t1 v1 hrul =>
          split at h
          next h2 => cases h
          next s1 h2 =>
            split at h
            next r3 t2 v2 hb =>
              injection h with hx1 hx2 hx3
              subst hx1
              subst hx2
              intro x hx hx0
              by_cases hxr1 : x ∈ akeys r1.users
              · by_cases hxr2 : x ∈ akeys (aerase r1.users uid)
                · obtain ⟨eL, hm, he1, he2⟩ :=
                    ihB now _ _ (some uid) r3 t2 v2 hb x hxr2 hx0
                  exact ⟨eL, List.mem_append.2 (Or.inr hm), he1, he2⟩
                · have hxu : x = uid := eq_of_mem_not_mem_aerase hxr1 hxr2
                  subst hxu
                  obtain ⟨ct, hts, _⟩ := broadcast_ok_shape hb
                  subst hts
                  exact ⟨_, List.mem_append.2
                    (Or.inr (List.mem_append.2
                      (Or.inl (List.mem_cons_self _ _)))), rfl, rfl⟩
              · obtain ⟨eL, hm, he1, he2⟩ :=
                  ihU now r uid r1 t1 v1 hrul x hx hxr1
                exact ⟨eL, List.mem_append.2 (Or.inl hm), he1, he2⟩
            next r3 t2 hb => cases h
            next hb => cases h
        next r1 t1 hrul => cases h
        next hrul => cases h
    · intro now r uid r' t v h
      simp only [release_user_locks] at h
      split at h
      next hu =>
        injection h with h1 h2 h3
        subst h1
        intro x hx hx2
        exact absurd hx hx2
      next s hu =>
        exact ihL now r uid s.active_locks r' t v h
    · intro now r uid ps r' t v h
      cases ps with
      | nil =>
        simp only [releaseLocksLoop] at h
        injection h with h1 h2 h3
        subst h1
        intro x hx hx2
        exact absurd hx hx2
      | cons fp ps2 =>
        simp only [releaseLocksLoop] at h
        split at h
        next r1 t1 v1 hk =>
          split at h
          next r2 t2 v2 hl =>
            injection h with h1 h2 h3
            subst h1
            subst h2
            intro x hx hx2
            by_cases hx1 : x ∈ akeys r1.users
            · obtain ⟨eL, hm, he1, he2⟩ := ihL now r1 uid ps2 r2 t2 v2 hl x hx1 hx2
              exact ⟨eL, List.mem_append.2 (Or.inr hm), he1, he2⟩
            · obtain ⟨eL, hm, he1, he2⟩ := ihK now r uid fp r1 t1 v1 hk x hx hx1
              exact ⟨eL, List.mem_append.2 (Or.inl hm), he1, he2⟩
          next r2 t2 hl => cases h
          next hl => cases h
        next r1 t1 hk => cases h
        next hk => cases h
    · intro now r uid fp r' t v h
      simp only [release_lock] at h
      split at h
      next holder hl =>
        split at h
        next hif =>
          intro x hx hx2
          refine ihB now _ _ (some uid) r' t v h x ?_ hx2
          rw [show akeys (adjust r.users uid (discardLock fp)) = akeys r.users
            from akeys_adjust]
          exact hx
        next hif =>
          injection h with h1 h2 h3
          subst h1
          intro x hx hx2
          exact absurd hx hx2
      next hl =>
        injection h with h1 h2 h3
        subst h1
        intro x hx hx2
        exact absurd hx hx2


/-! Claim C5 (corrected): broadcast delivery and failure cleanup. -/

/-- Counterexample to C5 as frozen: `c5room`'s member `u1` has a dead
transport and an orphan lock on `l` (a lock not recorded in its
session's `active_locks`, reachable per C10).  Broadcasting any event
removes `u1` but leaves the lock table still mapping `l` to `u1`: the
failed session's locks are not all released. -/
theorem claim_C5_counterexample :
    broadcast_event 6 1 c5room c5event (some "u2") =
      .ok ⟨"c", [("u2", UserSession.fresh "u2" "U2" true 0)],
           [("l", "u1")], [], 0, 1⟩
        [.bcast c5event (some "u2"),
         .send "u1" c5event false,
         .bcast ⟨.user_left, "c", "u1", .userLeft "U1" 1 ["u2"], 1⟩
           (some "u1"),
         .send "u2" ⟨.user_left, "c", "u1", .userLeft "U1" 1 ["u2"], 1⟩
           true] () := by
  decide

/-- C5 (amended): a normally-completing `broadcast_event(E, some X)`
attempts delivery of `E` exactly once at every session other than `X`
(none at `X` itself when `X` is non-empty) before any cleanup traffic,
and every session whose send failed is afterwards gone from the room,
with a USER_LEFT broadcast started for it; in rooms satisfying the lock
invariant it also holds no remaining lock. -/
theorem claim_C5_broadcast_exclusion_and_cleanup :
    ∀ fuel now r (E : CollaborationEvent) (X : UserId) r' t v,
      (akeys r.users).Nodup →
      broadcast_event fuel now r E (some X) = .ok r' t v →
      (∃ ct, t = (.bcast E (some X) :: mainSends E (some X) r.users) ++ ct) ∧
      (∀ u ∈ akeys r.users, u ≠ X →
        countRecip u (mainSends E (some X) r.users) = 1) ∧
      (X ≠ "" → countRecip X (mainSends E (some X) r.users) = 0) ∧
      (∀ i ∈ mainSends E (some X) r.users, ∃ rcp c, i = .send rcp E c) ∧
      (∀ d ∈ failedIds (some X) r.users,
        d ∉ akeys r'.users ∧
        (∃ eL, TraceItem.bcast eL (some d) ∈ t ∧
          eL.event_type = .user_left ∧ eL.user_id = d) ∧
        (InvRoom r → ∀ p, ¬ alookup r'.content_locks p = some d)) := by
  intro fuel now r E X r' t v nd h
  obtain ⟨ct, hts, hcl⟩ := broadcast_ok_shape h
  obtain ⟨hS, hI, hD⟩ := (shrink_inv_pack fuel).1 _ _ _ _ _ _ _ h
  refine ⟨⟨ct, hts⟩, ?_, ?_, ?_, ?_⟩
  · intro u hu hne
    exact countRecip_mainSends_one _ nd hu (not_excludedBy_of_ne hne)
  · intro hX
    apply countRecip_mainSends_zero_of_excluded
    simp [excludedBy, hX]
  · intro i hi
    exact mainSends_mem hi
  · intro d hd
    have hdk : d ∈ akeys r.users := mem_failedIds hd
    have hgone : d ∉ akeys r'.users := hD d hd
    refine ⟨hgone, ?_, ?_⟩
    · exact (left_marker_pack fuel).1 _ _ _ _ _ _ _ h d hdk hgone
    · intro hv p hp
      obtain ⟨s0, hs0, _⟩ := (hI hv).2.2.1 p d (alookup_mem hp)
      exact hgone (alookup_isSome_iff.1 (by simp [hs0]))

/-- Witness for C5: a broadcast on the all-connected room `c8room`
excluding `b` attempts delivery at `a` exactly once. -/
theorem claim_C5_broadcast_exclusion_and_cleanup_witness :
    countRecip "a" (mainSends c5event (some "b") c8room.users) = 1 :=
  (claim_C5_broadcast_exclusion_and_cleanup 2 0 c8room c5event "b" c8room
    [.bcast c5event (some "b"),
     .send "a" c5event true] () (by decide) (by decide)).2.1 "a"
    (by decide) (by decide)


/-! A lock that no session's `active_locks` records is invisible to the
cleanup machinery: nothing ever releases it. -/

theorem orphan_pack (A : UserId) (P : FieldPath) : ∀ fuel : Nat,
    (∀ now r e ex r' t v, broadcast_event fuel now r e ex = .ok r' t v →
      OrphanLock A P r → OrphanLock A P r') ∧
    (∀ now r ds r' t v, cleanupLoop fuel now r ds = .ok r' t v →
      OrphanLock A P r → OrphanLock A P r') ∧
    (∀ now r uid r' t v, remove_user fuel now r uid = .ok r' t v →
      OrphanLock A P r → OrphanLock A P r') ∧
    (∀ now r uid r' t v, release_user_locks fuel now r uid = .ok r' t v →
      OrphanLock A P r → OrphanLock A P r') ∧
    (∀ now r uid ps r' t v, P ∉ ps →
      releaseLocksLoop fuel now r uid ps = .ok r' t v →
      OrphanLock A P r → OrphanLock A P r') ∧
    (∀ now r uid fp r' t v, ¬(fp = P) →
      release_lock fuel now r uid fp = .ok r' t v →
      OrphanLock A P r → OrphanLock A P r') := by
  intro fuel
  induction fuel with
  | zero =>
    refine ⟨?_, ?_, ?_, ?_, ?_, ?_⟩
    · intro now r e ex r' t v h; simp only [broadcast_event] at h; cases h
    · intro now r ds r' t v h; simp only [cleanupLoop] at h; cases h
    · intro now r uid r' t v h; simp only [remove_user] at h; cases h
    · intro now r uid r' t v h; simp only [release_user_locks] at h; cases h
    · intro now r uid ps r' t v _ h; simp only [releaseLocksLoop] at h; cases h
    · intro now r uid fp r' t v _ h; simp only [release_lock] at h; cases h
  | succ n ih =>
    obtain ⟨ihB, ihC, ihR, ihU, ihL, ihK⟩ := ih
    refine ⟨?_, ?_, ?_, ?_, ?_, ?_⟩
    · intro now r e ex r' t v h hW
      simp only [broadcast_event] at h
      split at h
      next r2 t2 v2 hc =>
        injection h with h1 h2 h3
        subst h1
        exact ihC now r _ r2 t2 v2 hc hW
      next r2 t2 hc => cases h
      next hc => cases h
    · intro now r ds r' t v h hW
      cases ds with
      | nil =>
        simp only [cleanupLoop] at h
        injection h with h1 h2 h3
        subst h1
        exact hW
      | cons d ds2 =>
        simp only [cleanupLoop] at h
        split at h
        next r1 t1 v1 hr =>
          split at h
          next r2 t2 v2 hc =>
            injection h with h1 h2 h3
            subst h1
            exact ihC now r1 ds2 r2 t2 v2 hc (ihR now r d r1 t1 v1 hr hW)
          next r2 t2 hc => cases h
          next hc => cases h
        next r1 t1 hr => cases h
        next hr => cases h
    · intro now r uid r' t v h hW
      simp only [remove_user] at h
      split at h
      next hu =>
        injection h with h1 h2 h3
        subst h1
        exact hW
      next s hu =>
        split at h
        next r1 t1 v1 hrul =>
          split at h
          next h2 => cases h
          next s1 h2 =>
            split at h
            next r3 t2 v2 hb =>
              injection h with hx1 hx2 hx3
              subst hx1
              have hW1 := ihU now r uid r1 t1 v1 hrul hW
              have hW2 : OrphanLock A P
                  { r1 with users := aerase r1.users uid,
                            last_activity := now } := by
                refine ⟨hW1.1, ?_⟩
                intro u s' hus'
                exact hW1.2 u s' (mem_aerase.1 hus').1
              exact ihB now _ _ (some uid) r3 t2 v2 hb hW2
            next r3 t2 hb => cases h
            next hb => cases h
        next r1 t1 hrul => cases h
        next hrul => cases h
    · intro now r uid r' t v h hW
      simp only [release_user_locks] at h
      split at h
      next hu =>
        injection h with h1 h2 h3
        subst h1
        exact hW
      next s hu =>
        exact ihL now r uid s.active_locks r' t v
          (hW.2 uid s (alookup_mem hu)) h hW
    · intro now r uid ps r' t v hP h hW
      cases ps with
      | nil =>
        simp only [releaseLocksLoop] at h
        injection h with h1 h2 h3
        subst h1
        exact hW
      | cons fp ps2 =>
        simp only [releaseLocksLoop] at h
        split at h
        next r1 t1 v1 hk =>
          split at h
          next r2 t2 v2 hl =>
            injection h with h1 h2 h3
            subst h1
            have hfp : ¬(fp = P) := by
              intro he
              exact hP (he ▸ List.mem_cons_self _ _)
            have hps2 : P ∉ ps2 := fun hm => hP (List.mem_cons_of_mem _ hm)
            exact ihL now r1 uid ps2 r2 t2 v2 hps2 hl
              (ihK now r uid fp r1 t1 v1 hfp hk hW)
          next r2 t2 hl => cases h
          next hl => cases h
        next r1 t1 hk => cases h
        next hk => cases h
    · intro now r uid fp r' t v hfp h hW
      simp only [release_lock] at h
      split at h
      next holder hl =>
        split at h
        next hif =>
          have hW2 : OrphanLock A P
              { r with content_locks := aerase r.content_locks fp,
                       users := adjust r.users uid (discardLock fp) } := by
            constructor
            · rw [alookup_aerase_ne (fun he => hfp he.symm)]
              exact hW.1
            · intro u s' hus'
              rcases mem_adjust hus' with ⟨hm, _⟩ | ⟨w, hw, he⟩
              · exact hW.2 u s' hm
              · injection he with he1 he2
                subst he1
                rw [he2]
                intro hmem
                exact hW.2 u w hw (List.mem_filter.1 hmem).1
          exact ihB now _ _ (some uid) r' t v h hW2
        next hif =>
          injection h with h1 h2 h3
          subst h1
          exact hW
      next hl =>
        injection h with h1 h2 h3
        subst h1
        exact hW


/-! Claim C10: acquire_lock has no membership precondition and creates
an orphan lock for a session-less actor. -/

/-- C10: an actor `A` with no session can still acquire an unlocked
path `P`: the call returns true, records `A` as holder with the
LOCK_ACQUIRED event naming "Unknown", adds `P` to no session's
`active_locks`; such an orphan lock survives `remove_user` of anyone
and a fresh `add_user` (so also a later re-join of `A` followed by
`remove_user(A)`), and only an explicit `release_lock(A, P)` removes
it. -/
theorem claim_C10_nonmember_acquire :
    (∀ fuel now r (A : UserId) (P : FieldPath),
      alookup r.users A = none → alookup r.content_locks P = none →
      (∀ u s, (u, s) ∈ r.users → P ∉ s.active_locks) →
      ∀ r' t b, acquire_lock fuel now r A P = .ok r' t b →
        b = true ∧ alookup r'.users A = none ∧ OrphanLock A P r' ∧
        t.head? = some (.bcast ⟨.lock_acquired, r.campaign_id, A,
          .lockAcquired P "Unknown", now⟩ (some A))) ∧
    (∀ (A : UserId) (P : FieldPath) fuel now r uid r' t v,
      OrphanLock A P r →
      remove_user fuel now r uid = .ok r' t v → OrphanLock A P r') ∧
    (∀ (A : UserId) (P : FieldPath) fuel now r (s : UserSession) r' t v,
      OrphanLock A P r → s.active_locks = [] →
      add_user fuel now r s = .ok r' t v → OrphanLock A P r') ∧
    (∀ (A : UserId) (P : FieldPath) fuel now r r' t v,
      OrphanLock A P r →
      release_lock fuel now r A P = .ok r' t v →
      alookup r'.content_locks P = none) := by
  refine ⟨?_, ?_, ?_, ?_⟩
  · intro fuel now r A P hA hP hact r' t b h
    simp only [acquire_lock, hP] at h
    split at h
    next r2 t2 v2 hb =>
      injection h with h1 h2 h3
      subst h1
      subst h2
      subst h3
      have hAkeys : A ∉ akeys (adjust r.users A (addLock P)) := by
        rw [show akeys (adjust r.users A (addLock P)) = akeys r.users from
          akeys_adjust]
        exact alookup_eq_none.1 hA
      have hW1 : OrphanLock A P
          { r with content_locks := ainsert r.content_locks P A,
                   users := adjust r.users A (addLock P) } := by
        constructor
        · exact alookup_ainsert_self
        · intro u s' hus'
          rcases mem_adjust hus' with ⟨hm, _⟩ | ⟨w, hw, _⟩
          · exact hact u s' hm
          · exact absurd (mem_akeys_of_mem hw) (alookup_eq_none.1 hA)
      obtain ⟨S, _, _⟩ := (shrink_inv_pack fuel).1 _ _ _ _ _ _ _ hb
      have husername : usernameOr
          { r with content_locks := ainsert r.content_locks P A,
                   users := adjust r.users A (addLock P) } A = "Unknown" := by
        have hnone : alookup (adjust r.users A (addLock P)) A = none := by
          rw [alookup_adjust, if_pos rfl, hA]
          rfl
        simp [usernameOr, hnone]
      refine ⟨rfl, ?_, ?_, ?_⟩
      · exact alookup_eq_none.2 (shrink_not_mem_users S hAkeys)
      · exact (orphan_pack A P fuel).1 _ _ _ _ _ _ _ hb hW1
      · obtain ⟨ct, hts, _⟩ := broadcast_ok_shape hb
        subst hts
        rw [← husername]
        rfl
    next r2 t2 hb => cases h
    next hb => cases h
  · intro A P fuel now r uid r' t v hW h
    exact (orphan_pack A P fuel).2.2.1 _ _ _ _ _ _ h hW
  · intro A P fuel now r s r' t v hW hact h
    simp only [add_user] at h
    split at h
    next r2 t2 v2 hb =>
      injection h with h1 h2 h3
      subst h1
      have hW1 : OrphanLock A P
          { r with users := ainsert r.users s.user_id s,
                   last_activity := now } := by
        refine ⟨hW.1, ?_⟩
        intro u s' hus'
        rcases mem_ainsert hus' with hm | he
        · exact hW.2 u s' hm
        · injection he with he1 he2
          subst he2
          rw [hact]
          simp
      exact (orphan_pack A P fuel).1 _ _ _ _ _ _ _ hb hW1
    next r2 t2 hb => cases h
    next hb => cases h
  · intro A P fuel now r r' t v hW h
    cases fuel with
    | zero => simp only [release_lock] at h; cases h
    | succ n =>
      simp only [release_lock] at h
      split at h
      next holder hl2 =>
        have hAh : holder = A := by
          rw [hW.1] at hl2
          injection hl2 with hx
          exact hx.symm
        split at h
        next hif =>
          obtain ⟨S3, _, _⟩ := (shrink_inv_pack n).1 _ _ _ _ _ _ _ h
          rcases hx : alookup r'.content_locks P with _ | x
          · rfl
          · have hm2 := S3.2.2.1 _ (alookup_mem hx)
            have hno := (mem_aerase.1 hm2).2
            simp at hno
        next hif => exact absurd hAh hif
      next hl2 =>
        rw [hW.1] at hl2
        cases hl2

/-- Witness for C10: the session-less actor `a` acquires `f` in an
empty room, creating the orphan room `c2bad`. -/
theorem claim_C10_nonmember_acquire_witness :
    true = true ∧ alookup c2bad.users "a" = none ∧
      OrphanLock "a" "f" c2bad ∧
      [TraceItem.bcast ⟨.lock_acquired, "c", "a",
          .lockAcquired "f" "Unknown", 0⟩ (some "a")].head? =
        some (.bcast ⟨.lock_acquired, "c", "a",
          .lockAcquired "f" "Unknown", 0⟩ (some "a")) :=
  claim_C10_nonmember_acquire.1 3 0 (emptyRoom "c" 0) "a" "f" (by decide)
    (by decide) (by intro u s hs; cases hs) c2bad
    [.bcast ⟨.lock_acquired, "c", "a", .lockAcquired "f" "Unknown", 0⟩
      (some "a")] true (by decide)


/-! Claim C2 (corrected): the lock-ownership invariant under
disciplined use. -/

theorem mem_addLock {p fp : FieldPath} {s : UserSession} :
    p ∈ (addLock fp s).active_locks ↔ p ∈ s.active_locks ∨ p = fp := by
  by_cases h : fp ∈ s.active_locks
  · simp only [addLock, if_pos h]
    exact ⟨Or.inl, fun hp => hp.elim id (fun he => he ▸ h)⟩
  · simp only [addLock, if_neg h]
    rw [List.mem_append, List.mem_singleton]

theorem inv_add_user_state {r : Room} {s : UserSession} {now : Nat}
    (inv : InvRoom r) (habs : alookup r.users s.user_id = none)
    (hact : s.active_locks = []) : InvRoom (joinRoom r s now) := by
  obtain ⟨ndU, ndL, h3, h4⟩ := inv
  refine ⟨nodup_akeys_ainsert ndU, ndL, ?_, ?_⟩
  · intro p u hpu
    obtain ⟨s0, hs0, hp⟩ := h3 p u hpu
    have hne : u ≠ s.user_id := by
      intro he
      rw [he, habs] at hs0
      cases hs0
    rw [show (joinRoom r s now).users = ainsert r.users s.user_id s from rfl,
        alookup_ainsert_ne hne]
    exact ⟨s0, hs0, hp⟩
  · intro u s' hus' p hp
    rcases mem_ainsert hus' with hm | he
    · exact h4 u s' hm p hp
    · injection he with he1 he2
      subst he2
      rw [hact] at hp
      cases hp

theorem inv_acquire {r : Room} {uid : UserId} {fp : FieldPath}
    (inv : InvRoom r) (hfree : alookup r.content_locks fp = none)
    (hmem : (alookup r.users uid).isSome = true) :
    InvRoom { r with content_locks := ainsert r.content_locks fp uid,
                     users := adjust r.users uid (addLock fp) } := by
  obtain ⟨ndU, ndL, h3, h4⟩ := inv
  obtain ⟨s0, hs0⟩ : ∃ s0, alookup r.users uid = some s0 := by
    rcases hx : alookup r.users uid with _ | s0
    · rw [hx] at hmem
      cases hmem
    · exact ⟨s0, rfl⟩
  refine ⟨?_, nodup_akeys_ainsert ndL, ?_, ?_⟩
  · simpa [akeys_adjust] using ndU
  · intro p u hpu
    rcases mem_ainsert hpu with hm | he
    · obtain ⟨s1, hs1, hp⟩ := h3 p u hm
      by_cases hu : u = uid
      · subst hu
        rw [alookup_adjust, if_pos rfl, hs1]
        exact ⟨addLock fp s1, rfl, mem_addLock.2 (Or.inl hp)⟩
      · rw [alookup_adjust, if_neg hu]
        exact ⟨s1, hs1, hp⟩
    · injection he with he1 he2
      rw [he1, he2]
      rw [alookup_adjust, if_pos rfl, hs0]
      exact ⟨addLock fp s0, rfl, mem_addLock.2 (Or.inr rfl)⟩
  · intro u s' hus' p hp
    rcases mem_adjust hus' with ⟨hm, hne⟩ | ⟨v, hv, he⟩
    · have hlk := h4 u s' hm p hp
      have hpf : p ≠ fp := by
        intro he
        rw [he, hfree] at hlk
        cases hlk
      rw [alookup_ainsert_ne hpf]
      exact hlk
    · injection he with he1 he2
      subst he1
      rw [he2] at hp
      rcases mem_addLock.1 hp with hp1 | hp1
      · have hlk := h4 u v hv p hp1
        have hpf : p ≠ fp := by
          intro he
          rw [he, hfree] at hlk
          cases hlk
        rw [alookup_ainsert_ne hpf]
        exact hlk
      · rw [hp1]
        exact alookup_ainsert_self

/-- Counterexample to C2 as frozen: from the empty room, the single
public operation `acquire_lock("a", "f")` — actor `a` has no session —
reaches `c2bad`, whose lock table maps `f` to `a` while the session map
is empty. -/
theorem claim_C2_counterexample :
    ReachableAny c2bad ∧ alookup c2bad.content_locks "f" = some "a" ∧
      alookup c2bad.users "a" = none := by
  refine ⟨⟨"c", 0, Relation.ReflTransGen.single ?_⟩, by decide, by decide⟩
  exact Step.acquire 3 0 (emptyRoom "c" 0) c2bad "a" "f"
    [.bcast ⟨.lock_acquired, "c", "a", .lockAcquired "f" "Unknown", 0⟩
      (some "a")] true (by decide)

/-- C2 (amended): from an empty room, under sequences of the public
operations in which `add_user` only registers an absent actor id and
`acquire_lock` is only invoked by an actor with a session, every room
state satisfies the full lock-ownership invariant — in particular every
lock-table value is a present actor id — and after any normally
completing `remove_user(A)` from such a state no field-path maps to
`A`. -/
theorem claim_C2_lock_ownership_invariant :
    (∀ r, ReachableD r → InvRoom r) ∧
    (∀ r, ReachableD r → ∀ fuel now uid r' t v,
      remove_user fuel now r uid = .ok r' t v →
      ∀ p, ¬ alookup r'.content_locks p = some uid) := by
  have main : ∀ r, ReachableD r → InvRoom r := by
    intro r hreach
    obtain ⟨cid, now0, hsteps⟩ := hreach
    induction hsteps with
    | refl =>
      refine ⟨List.nodup_nil, List.nodup_nil, ?_, ?_⟩
      · intro p u h
        cases h
      · intro u s h
        cases h
    | tail hab hbc ih =>
      cases hbc with
      | addUser fuel now rr r2 uid uname conn t v habs hok =>
        simp only [add_user] at hok
        split at hok
        next r3 t3 v3 hb =>
          injection hok with h1 h2 h3
          subst h1
          exact ((shrink_inv_pack fuel).1 _ _ _ _ _ _ _ hb).2.1
            (inv_add_user_state ih habs rfl)
        next r3 t3 hb => cases hok
        next hb => cases hok
      | removeUser fuel now rr r2 uid t v hok =>
        exact ((shrink_inv_pack fuel).2.2.1 _ _ _ _ _ _ hok).2.1 ih
      | acquire fuel now rr r2 uid fp t b hmem hok =>
        simp only [acquire_lock] at hok
        split at hok
        next holder hl =>
          injection hok with h1 h2 h3
          subst h1
          exact ih
        next hl =>
          split at hok
          next r3 t3 v3 hb =>
            injection hok with h1 h2 h3
            subst h1
            exact ((shrink_inv_pack fuel).1 _ _ _ _ _ _ _ hb).2.1
              (inv_acquire ih hl hmem)
          next r3 t3 hb => cases hok
          next hb => cases hok
      | release fuel now rr r2 uid fp t v hok =>
        cases fuel with
        | zero => simp only [release_lock] at hok; cases hok
        | succ n =>
          simp only [release_lock] at hok
          split at hok
          next holder hl =>
            split at hok
            next hif =>
              refine ((shrink_inv_pack n).1 _ _ _ _ _ _ _ hok).2.1
                (inv_release ih ?_)
              rw [hl, hif]
            next hif =>
              injection hok with h1 h2 h3
              subst h1
              exact ih
          next hl =>
            injection hok with h1 h2 h3
            subst h1
            exact ih
      | change fuel now rr r2 uid fp ov nv ok db t v hok =>
        simp only [handle_content_change] at hok
        split at hok
        next hcf =>
          injection hok with h1 h2 h3
          subst h1
          exact ih
        next hcf =>
          split at hok
          next r3 t3 v3 hb =>
            rw [persist_change_eq] at hok
            dsimp only at hok
            injection hok with h1 h2 h3
            subst h1
            refine ((shrink_inv_pack fuel).1 _ _ _ _ _ _ _ hb).2.1 ?_
            exact ⟨ih.1, ih.2.1, ih.2.2.1, ih.2.2.2⟩
          next r3 t3 hb => cases hok
          next hb => cases hok
      | bcast fuel now rr r2 e ex t v hok =>
        exact ((shrink_inv_pack fuel).1 _ _ _ _ _ _ _ hok).2.1 ih
  refine ⟨main, ?_⟩
  intro r hreach fuel now uid r' t v hok p hp
  obtain ⟨S, I, hgone⟩ := (shrink_inv_pack fuel).2.2.1 _ _ _ _ _ _ hok
  obtain ⟨s0, hs0, _⟩ := (I (main r hreach)).2.2.1 p uid (alookup_mem hp)
  exact hgone (alookup_isSome_iff.1 (by simp [hs0]))

/-- Witness for C2: the empty room is reachable and satisfies the
invariant. -/
theorem claim_C2_lock_ownership_invariant_witness :
    InvRoom (emptyRoom "c" 0) :=
  claim_C2_lock_ownership_invariant.1 (emptyRoom "c" 0)
    ⟨"c", 0, Relation.ReflTransGen.refl⟩

end Collab
